import Mathlib

/-!
Shallow embedding of the memory-management core of the KittyInterpreter
repository: the fixed-capacity pool allocator (src/kty/containers/allocator.hpp),
the circular doubly-linked deque built on it (src/kty/containers/deque.hpp),
and the string-pool layer (modelled from the spec, since
src/kty/containers/string.hpp itself is not present; only its tests are).

Pointers are modelled as `Option Nat`: `some i` is the pool block address
`pool_[i]`, `none` is `NULL` (and any pointer that is not a pool block is
either `none` or `some i` with `i` out of range).  Machine `int` counters are
modelled as `Int`.
-/

namespace KittyModel

/-- Pointwise update of a `Nat`-indexed store: the model of a single array
store `f[i] = v`. -/
def setF {α : Type} (f : Nat → α) (i : Nat) (v : α) : Nat → α :=
  fun j => if j = i then v else f j

theorem setF_eq {α : Type} (f : Nat → α) (i : Nat) (v : α) : setF f i v i = v := by
  simp [setF]

theorem setF_ne {α : Type} (f : Nat → α) (i j : Nat) (v : α) (h : j ≠ i) :
    setF f i v j = f j := by
  simp [setF, h]

/-- State of `kty::Allocator<T>` (src/kty/containers/allocator.hpp):
`poolSize` slots of payload (`pool_`), per-slot in-use flags (`taken_`),
the live count `numTaken_` and the high-water mark `maxNumTaken_`. -/
structure Alloc (T : Type) where
  poolSize : Nat
  pool : Nat → T
  taken : Nat → Bool
  numTaken : Int
  maxNumTaken : Int

/-- The scan `for (i = s; fuel slots remain; ++i) if (!taken_[i]) return i;`
used by `Allocator::allocate`: first index `≥ s` among the next `fuel`
indices whose flag is false. -/
def scanFrom (t : Nat → Bool) : Nat → Nat → Option Nat
  | _, 0 => none
  | s, fuel + 1 => if t s then scanFrom t (s + 1) fuel else some s

/-- First free slot of the allocator (the loop of `Allocator::allocate`
starting at index 0 over all `poolSize` slots). -/
def Alloc.firstFree {T : Type} (a : Alloc T) : Option Nat :=
  scanFrom a.taken 0 a.poolSize

/-- Embedding of `Allocator::allocate` (allocator.hpp lines 75-89): scan for
the first free slot; on success mark it used, increment the live count,
update the high-water mark, return the slot; on exhaustion return `NULL`
(here `none`) and leave the state unchanged (the warning log has no state
effect). -/
def Alloc.allocate {T : Type} (a : Alloc T) : Option Nat × Alloc T :=
  match a.firstFree with
  | some i =>
    (some i,
      { a with
        taken := setF a.taken i true
        numTaken := a.numTaken + 1
        maxNumTaken :=
          if a.numTaken + 1 > a.maxNumTaken then a.numTaken + 1 else a.maxNumTaken })
  | none => (none, a)

/-- Embedding of `Allocator::deallocate` (allocator.hpp lines 98-107): scan
for the slot whose address equals `ptr`; when found (`ptr = some i` with
`i < poolSize`) clear its flag and decrement the live count — note the flag
is cleared and the count decremented even if the flag was already clear.
A pointer matching no slot (NULL or foreign) falls through the loop and
only logs a warning: no state change. -/
def Alloc.deallocate {T : Type} (a : Alloc T) (ptr : Option Nat) : Alloc T :=
  match ptr with
  | some i =>
    if i < a.poolSize then
      { a with taken := setF a.taken i false, numTaken := a.numTaken - 1 }
    else a
  | none => a

/-- Freshly constructed allocator (the constructor, allocator.hpp lines
24-34): all flags false, live count and high-water mark zero; `f` gives the
uninitialised contents of the malloc'd payload blocks. -/
def freshAlloc {T : Type} (n : Nat) (f : Nat → T) : Alloc T :=
  { poolSize := n, pool := f, taken := fun _ => false, numTaken := 0, maxNumTaken := 0 }

theorem scanFrom_none_spec (t : Nat → Bool) :
    ∀ fuel s, scanFrom t s fuel = none → ∀ j, s ≤ j → j < s + fuel → t j = true := by
  intro fuel
  induction fuel with
  | zero => intro s _ j hsj hlt; omega
  | succ n ih =>
    intro s hscan j hsj hlt
    by_cases hts : t s = true
    · rcases Nat.eq_or_lt_of_le hsj with hEq | hlt2
      · rwa [← hEq]
      · have hrec : scanFrom t (s + 1) n = none := by
          simpa [scanFrom, hts] using hscan
        exact ih (s + 1) hrec j hlt2 (by omega)
    · simp [scanFrom, hts] at hscan

theorem scanFrom_some_spec (t : Nat → Bool) :
    ∀ fuel s i, scanFrom t s fuel = some i →
      s ≤ i ∧ i < s + fuel ∧ t i = false ∧ ∀ j, s ≤ j → j < i → t j = true := by
  intro fuel
  induction fuel with
  | zero => intro s i hscan; simp [scanFrom] at hscan
  | succ n ih =>
    intro s i hscan
    by_cases hts : t s = true
    · have hrec : scanFrom t (s + 1) n = some i := by
        simpa [scanFrom, hts] using hscan
      obtain ⟨h1, h2, h3, h4⟩ := ih (s + 1) i hrec
      refine ⟨by omega, by omega, h3, ?_⟩
      intro j hsj hji
      rcases Nat.eq_or_lt_of_le hsj with hEq | hlt2
      · rwa [← hEq]
      · exact h4 j hlt2 hji
    · have hi : i = s := by
        have := hscan
        simp [scanFrom, hts] at this
        omega
      subst hi
      exact ⟨le_refl _, by omega, by simpa using hts, fun j hsj hji => by omega⟩

theorem firstFree_none_iff {T : Type} (a : Alloc T) :
    a.firstFree = none ↔ ∀ i, i < a.poolSize → a.taken i = true := by
  constructor
  · intro h i hi
    exact scanFrom_none_spec a.taken a.poolSize 0 h i (Nat.zero_le _) (by omega)
  · intro h
    cases hff : a.firstFree with
    | none => rfl
    | some i =>
      obtain ⟨_, h2, h3, _⟩ := scanFrom_some_spec a.taken a.poolSize 0 i hff
      rw [h i (by omega)] at h3
      cases h3

/-- Concrete payload function used by witness instances. -/
def zeroF : Nat → Nat := fun _ => 0

/-- C2: for every Allocator state, `allocate()` returns the first free slot
(lowest index), marking it used and incrementing the live count, when at
least one slot is free; and returns the distinguished no-capacity result
(NULL, modelled `none`) exactly when all slots are in use, changing no
state. -/
theorem allocate_first_free_spec {T : Type} (a : Alloc T) :
    ((∃ i, i < a.poolSize ∧ a.taken i = false) →
      ∃ i, (a.allocate).1 = some i ∧ i < a.poolSize ∧ a.taken i = false ∧
        (∀ j, j < i → a.taken j = true) ∧
        (a.allocate).2.taken = setF a.taken i true ∧
        (a.allocate).2.numTaken = a.numTaken + 1 ∧
        (a.allocate).2.pool = a.pool ∧
        (a.allocate).2.poolSize = a.poolSize) ∧
    ((∀ i, i < a.poolSize → a.taken i = true) → a.allocate = (none, a)) := by
  constructor
  · rintro ⟨i, hi, hfree⟩
    cases hff : a.firstFree with
    | none =>
      rw [firstFree_none_iff] at hff
      rw [hff i hi] at hfree
      cases hfree
    | some k =>
      obtain ⟨_, hk2, hk3, hk4⟩ := scanFrom_some_spec a.taken a.poolSize 0 k hff
      have hall : a.allocate =
          (some k,
            { a with
              taken := setF a.taken k true
              numTaken := a.numTaken + 1
              maxNumTaken :=
                if a.numTaken + 1 > a.maxNumTaken then a.numTaken + 1
                else a.maxNumTaken }) := by
        unfold Alloc.allocate
        rw [hff]
      exact ⟨k, by rw [hall], by omega, hk3,
        fun j hj => hk4 j (Nat.zero_le _) hj,
        by rw [hall], by rw [hall], by rw [hall], by rw [hall]⟩
  · intro h
    have hn : a.firstFree = none := (firstFree_none_iff a).2 h
    unfold Alloc.allocate
    rw [hn]

theorem allocate_first_free_spec_witness :
    ∃ i, ((freshAlloc 2 zeroF).allocate).1 = some i ∧
      i < (freshAlloc 2 zeroF).poolSize ∧
      (freshAlloc 2 zeroF).taken i = false ∧
      (∀ j, j < i → (freshAlloc 2 zeroF).taken j = true) ∧
      ((freshAlloc 2 zeroF).allocate).2.taken = setF (freshAlloc 2 zeroF).taken i true ∧
      ((freshAlloc 2 zeroF).allocate).2.numTaken = (freshAlloc 2 zeroF).numTaken + 1 ∧
      ((freshAlloc 2 zeroF).allocate).2.pool = (freshAlloc 2 zeroF).pool ∧
      ((freshAlloc 2 zeroF).allocate).2.poolSize = (freshAlloc 2 zeroF).poolSize :=
  (allocate_first_free_spec (freshAlloc 2 zeroF)).1 ⟨0, by decide, rfl⟩

/-- Concrete allocator with its single slot allocated: slot 0 in use, live
count 1. -/
def exA1 : Alloc Nat := ((freshAlloc 1 zeroF).allocate).2

/-- The same allocator after its slot has been freed once: slot 0 free, live
count 0. -/
def exA2 : Alloc Nat := exA1.deallocate (some 0)

/-- C4 counterexample: deallocating the already-freed pool pointer `pool_[0]`
of `exA2` (a double free) is not a no-op — it decrements the live count from
0 to -1, contradicting the claim that the live count is left unchanged. -/
theorem deallocate_double_free_not_noop :
    ¬ ((exA2.deallocate (some 0)).numTaken = exA2.numTaken) := by
  decide

/-- C4 amended: deallocating a pointer that does not belong to this
allocator (NULL, or a pointer matching no pool block) is a safe no-op
leaving the whole state unchanged; deallocating an already-freed pool
pointer leaves every slot's in-use flag and the high-water mark unchanged
but still decrements the live count by one. -/
theorem deallocate_foreign_noop_double_free_decrements {T : Type}
    (a : Alloc T) (p : Option Nat) (i : Nat) :
    ((p = none ∨ ∃ j, p = some j ∧ a.poolSize ≤ j) → a.deallocate p = a) ∧
    (i < a.poolSize → a.taken i = false →
      (a.deallocate (some i)).taken = a.taken ∧
      (a.deallocate (some i)).maxNumTaken = a.maxNumTaken ∧
      (a.deallocate (some i)).numTaken = a.numTaken - 1) := by
  constructor
  · rintro (rfl | ⟨j, rfl, hj⟩)
    · rfl
    · have hnot : ¬ (j < a.poolSize) := by omega
      simp [Alloc.deallocate, hnot]
  · intro hi hfree
    have hd : a.deallocate (some i) =
        { a with taken := setF a.taken i false, numTaken := a.numTaken - 1 } := by
      simp [Alloc.deallocate, hi]
    refine ⟨?_, by rw [hd], by rw [hd]⟩
    rw [hd]
    funext j
    by_cases hji : j = i
    · subst hji
      simp [setF, hfree]
    · simp [setF, hji]

theorem deallocate_foreign_noop_double_free_decrements_witness :
    exA2.deallocate (some 5) = exA2 ∧
    (exA2.deallocate (some 0)).numTaken = exA2.numTaken - 1 :=
  ⟨(deallocate_foreign_noop_double_free_decrements exA2 (some 5) 0).1
      (Or.inr ⟨5, rfl, by decide⟩),
   ((deallocate_foreign_noop_double_free_decrements exA2 (some 5) 0).2
      (by decide) (by decide)).2.2⟩

/-- One externally driven allocator call: an `allocate` (whose returned
pointer the driver may keep or drop) or a `deallocate` of an arbitrary
pointer. -/
inductive AllocOp where
  | alloc : AllocOp
  | dealloc : Option Nat → AllocOp

/-- State effect of a single allocator call. -/
def AllocOp.step {T : Type} (op : AllocOp) (a : Alloc T) : Alloc T :=
  match op with
  | .alloc => (a.allocate).2
  | .dealloc p => a.deallocate p

/-- Runs a sequence of allocator calls left to right. -/
def runOps {T : Type} (a : Alloc T) : List AllocOp → Alloc T
  | [] => a
  | op :: ops => runOps (op.step a) ops

/-- Number of slots among the first `n` whose in-use flag is set. -/
def countTaken (t : Nat → Bool) : Nat → Nat
  | 0 => 0
  | n + 1 => countTaken t n + (if t n then 1 else 0)

theorem countTaken_le (t : Nat → Bool) : ∀ n, countTaken t n ≤ n := by
  intro n
  induction n with
  | zero => simp [countTaken]
  | succ m ih =>
    unfold countTaken
    by_cases h : t m <;> simp [h] <;> omega

theorem countTaken_congr (t t' : Nat → Bool) :
    ∀ n, (∀ j, j < n → t j = t' j) → countTaken t n = countTaken t' n := by
  intro n
  induction n with
  | zero => intro _; rfl
  | succ m ih =>
    intro h
    unfold countTaken
    rw [ih (fun j hj => h j (by omega)), h m (by omega)]

theorem countTaken_setF_true (t : Nat → Bool) (i : Nat) :
    ∀ n, i < n → t i = false →
      countTaken (setF t i true) n = countTaken t n + 1 := by
  intro n
  induction n with
  | zero => intro h; omega
  | succ m ih =>
    intro hin hfree
    unfold countTaken
    by_cases him : i = m
    · subst him
      have hcongr : countTaken (setF t i true) i = countTaken t i :=
        countTaken_congr _ _ i (fun j hj => setF_ne t i j true (by omega))
      rw [hcongr, setF_eq, hfree]
      simp
    · rw [ih (by omega) hfree, setF_ne t i m true (fun hmi => him hmi.symm)]
      by_cases h : t m <;> simp [h] <;> omega

theorem countTaken_setF_false_ge (t : Nat → Bool) (i : Nat) :
    ∀ n, countTaken t n ≤ countTaken (setF t i false) n + 1 := by
  intro n
  induction n with
  | zero => simp [countTaken]
  | succ m ih =>
    unfold countTaken
    by_cases him : i = m
    · subst him
      have hcongr : countTaken (setF t i false) i = countTaken t i :=
        countTaken_congr _ _ i (fun j hj => setF_ne t i j false (by omega))
      rw [hcongr, setF_eq]
      by_cases h : t i <;> simp [h]
    · rw [setF_ne t i m false (fun hmi => him hmi.symm)]
      by_cases h : t m <;> simp [h] <;> omega

theorem countTaken_eq_zero (t : Nat → Bool) :
    ∀ n, (∀ i, i < n → t i = false) → countTaken t n = 0 := by
  intro n
  induction n with
  | zero => intro _; rfl
  | succ m ih =>
    intro h
    unfold countTaken
    rw [ih (fun i hi => h i (by omega)), h m (by omega)]
    simp

theorem step_poolSize {T : Type} (op : AllocOp) (a : Alloc T) :
    (op.step a).poolSize = a.poolSize := by
  cases op with
  | alloc =>
    unfold AllocOp.step Alloc.allocate
    cases a.firstFree <;> rfl
  | dealloc p =>
    unfold AllocOp.step Alloc.deallocate
    cases p with
    | none => rfl
    | some i => by_cases h : i < a.poolSize <;> simp [h]

theorem runOps_poolSize {T : Type} (ops : List AllocOp) :
    ∀ a : Alloc T, (runOps a ops).poolSize = a.poolSize := by
  induction ops with
  | nil => intro a; rfl
  | cons op ops ih =>
    intro a
    unfold runOps
    rw [ih, step_poolSize]

theorem step_numTaken_le {T : Type} (op : AllocOp) (a : Alloc T)
    (h : a.numTaken ≤ (countTaken a.taken a.poolSize : Int)) :
    (op.step a).numTaken ≤ (countTaken (op.step a).taken (op.step a).poolSize : Int) := by
  cases op with
  | alloc =>
    unfold AllocOp.step
    cases hff : a.firstFree with
    | none =>
      unfold Alloc.allocate
      rw [hff]
      exact h
    | some i =>
      obtain ⟨_, hi, hfree, _⟩ := scanFrom_some_spec a.taken a.poolSize 0 i hff
      have hcount := countTaken_setF_true a.taken i a.poolSize (by omega) hfree
      unfold Alloc.allocate
      rw [hff]
      simp only []
      rw [hcount]
      push_cast
      omega
  | dealloc p =>
    unfold AllocOp.step Alloc.deallocate
    cases p with
    | none => exact h
    | some i =>
      by_cases hi : i < a.poolSize
      · simp only [hi, if_pos]
        have hge := countTaken_setF_false_ge a.taken i a.poolSize
        have hle := countTaken_le (setF a.taken i false) a.poolSize
        push_cast
        push_cast at h
        omega
      · simp only [hi, if_neg, not_false_iff]
        exact h

theorem runOps_numTaken_le {T : Type} (ops : List AllocOp) :
    ∀ a : Alloc T, a.numTaken ≤ (countTaken a.taken a.poolSize : Int) →
      (runOps a ops).numTaken ≤
        (countTaken (runOps a ops).taken (runOps a ops).poolSize : Int) := by
  induction ops with
  | nil => intro a h; exact h
  | cons op ops ih =>
    intro a h
    exact ih (op.step a) (step_numTaken_le op a h)

theorem step_hwm_mono {T : Type} (op : AllocOp) (a : Alloc T) :
    a.maxNumTaken ≤ (op.step a).maxNumTaken := by
  cases op with
  | alloc =>
    unfold AllocOp.step Alloc.allocate
    cases a.firstFree with
    | none => exact le_refl _
    | some i =>
      simp only []
      by_cases h : a.numTaken + 1 > a.maxNumTaken <;> simp [h] <;> omega
  | dealloc p =>
    unfold AllocOp.step Alloc.deallocate
    cases p with
    | none => exact le_refl _
    | some i => by_cases h : i < a.poolSize <;> simp [h]

theorem runOps_hwm_mono {T : Type} (ops : List AllocOp) :
    ∀ a : Alloc T, a.maxNumTaken ≤ (runOps a ops).maxNumTaken := by
  induction ops with
  | nil => intro a; exact le_refl _
  | cons op ops ih =>
    intro a
    exact le_trans (step_hwm_mono op a) (ih (op.step a))

theorem runOps_append {T : Type} (l1 l2 : List AllocOp) :
    ∀ a : Alloc T, runOps a (l1 ++ l2) = runOps (runOps a l1) l2 := by
  induction l1 with
  | nil => intro a; rfl
  | cons op ops ih =>
    intro a
    simp only [List.cons_append, runOps]
    exact ih (op.step a)

theorem allocate_fst_zero_of_all_free {T : Type} (a : Alloc T)
    (h0 : a.taken 0 = false) (hn : 0 < a.poolSize) :
    (a.allocate).1 = some 0 := by
  have hff : a.firstFree = some 0 := by
    unfold Alloc.firstFree
    cases hps : a.poolSize with
    | zero => omega
    | succ m => simp [scanFrom, h0]
  unfold Alloc.allocate
  rw [hff]

/-- C3: for every sequence of allocate and deallocate calls on an Allocator
of capacity `n`, the live count never exceeds `n`; the high-water mark never
decreases (a state later in the sequence has a mark at least as high); and
after every outstanding handle is deallocated (all flags free) a subsequent
allocate succeeds again — it returns the first slot — with full available
capacity (no slot in use). -/
theorem allocator_sequence_invariants {T : Type} (n : Nat) (f : Nat → T)
    (ops extra : List AllocOp) :
    (runOps (freshAlloc n f) ops).numTaken ≤ (n : Int) ∧
    (runOps (freshAlloc n f) ops).maxNumTaken ≤
      (runOps (freshAlloc n f) (ops ++ extra)).maxNumTaken ∧
    ((∀ i, i < n → (runOps (freshAlloc n f) ops).taken i = false) → 0 < n →
      ((runOps (freshAlloc n f) ops).allocate).1 = some 0 ∧
      countTaken (runOps (freshAlloc n f) ops).taken n = 0) := by
  refine ⟨?_, ?_, ?_⟩
  · have hinv : (runOps (freshAlloc n f) ops).numTaken ≤
        (countTaken (runOps (freshAlloc n f) ops).taken
          (runOps (freshAlloc n f) ops).poolSize : Int) := by
      apply runOps_numTaken_le
      have : countTaken (freshAlloc n f).taken (freshAlloc n f).poolSize = 0 :=
        countTaken_eq_zero _ _ (fun i _ => rfl)
      rw [this]
      exact le_refl 0
    have hle := countTaken_le (runOps (freshAlloc n f) ops).taken
      (runOps (freshAlloc n f) ops).poolSize
    have hps := runOps_poolSize ops (freshAlloc n f)
    have hpsn : (runOps (freshAlloc n f) ops).poolSize = n := hps
    rw [hpsn] at hinv hle
    omega
  · rw [runOps_append]
    exact runOps_hwm_mono extra _
  · intro hfree hn
    constructor
    · apply allocate_fst_zero_of_all_free
      · exact hfree 0 hn
      · rw [runOps_poolSize]
        exact hn
    · exact countTaken_eq_zero _ n hfree

theorem allocator_sequence_invariants_witness :
    (runOps (freshAlloc 1 zeroF) [AllocOp.alloc, AllocOp.dealloc (some 0)]).numTaken ≤
      (1 : Int) ∧
    ((runOps (freshAlloc 1 zeroF) [AllocOp.alloc, AllocOp.dealloc (some 0)]).allocate).1 =
      some 0 :=
  ⟨(allocator_sequence_invariants 1 zeroF [AllocOp.alloc, AllocOp.dealloc (some 0)] []).1,
   ((allocator_sequence_invariants 1 zeroF [AllocOp.alloc, AllocOp.dealloc (some 0)] []).2.2
      (by decide) (by decide)).1⟩

/-- Embedding of `Deque<T>::Node` (deque.hpp lines 20-27): a value plus
next/prev links; the links are pool slot indices (the model of the node
pointers). -/
structure DNode (T : Type) where
  value : T
  next : Nat
  prev : Nat

/-- Reads the `next` link of node `i` in pool `p`. -/
def nx {T : Type} (p : Nat → DNode T) (i : Nat) : Nat := (p i).next

/-- Reads the `prev` link of node `i` in pool `p`. -/
def pv {T : Type} (p : Nat → DNode T) (i : Nat) : Nat := (p i).prev

/-- Reads the stored value of node `i` in pool `p`. -/
def vl {T : Type} (p : Nat → DNode T) (i : Nat) : T := (p i).value

/-- The store `node_i->next = j`. -/
def setNext {T : Type} (a : Alloc (DNode T)) (i j : Nat) : Alloc (DNode T) :=
  { a with pool := setF a.pool i { a.pool i with next := j } }

/-- The store `node_i->prev = j`. -/
def setPrev {T : Type} (a : Alloc (DNode T)) (i j : Nat) : Alloc (DNode T) :=
  { a with pool := setF a.pool i { a.pool i with prev := j } }

/-- The store `node_i->value = v`. -/
def setValue {T : Type} (a : Alloc (DNode T)) (i : Nat) (v : T) : Alloc (DNode T) :=
  { a with pool := setF a.pool i { a.pool i with value := v } }

/-- State of `kty::Deque<T>` (deque.hpp): the backing node allocator, the
slot index of the dummy head node, and `size_`. -/
structure Deque (T : Type) where
  alloc : Alloc (DNode T)
  head : Nat
  size : Int

/-- Embedding of `Deque::create_allocator` (deque.hpp lines 39-42): an
allocator of `maxSize + 1` node slots (the extra slot is for the dummy
head). -/
def createAllocator {T : Type} (maxSize : Nat) (f : Nat → DNode T) : Alloc (DNode T) :=
  freshAlloc (maxSize + 1) f

/-- Embedding of the `Deque` constructor (deque.hpp lines 50-55): allocate
the dummy head and link it to itself.  If the allocator returns NULL the
next statement `head->next = head` dereferences a null pointer; that
undefined outcome is modelled as `none`. -/
def dequeNew {T : Type} (a : Alloc (DNode T)) : Option (Deque T) :=
  match a.allocate with
  | (none, _) => none
  | (some h, a1) =>
    let a2 := setNext a1 h h
    let a3 := setPrev a2 h h
    some { alloc := a3, head := h, size := 0 }

/-- Pointer splice of `Deque::push_front` (deque.hpp lines 95-101), after
`toInsert` (slot `i`) has been allocated: `toInsert->value = value;
next = head->next; toInsert->next = next; toInsert->prev = head;
next->prev = toInsert; head->next = toInsert`. -/
def pushFrontCore {T : Type} (a1 : Alloc (DNode T)) (i hd : Nat) (v : T) :
    Alloc (DNode T) :=
  let a2 := setValue a1 i v
  let nxt := nx a2.pool hd
  let a3 := setNext a2 i nxt
  let a4 := setPrev a3 i hd
  let a5 := setPrev a4 nxt i
  setNext a5 hd i

/-- Embedding of `Deque::push_front` (deque.hpp lines 92-103).  The code
stores `value` through the freshly allocated node pointer with no NULL
check; when the allocator is exhausted that store goes through NULL,
modelled as the `none` outcome. -/
def Deque.pushFront {T : Type} (v : T) (d : Deque T) : Option (Deque T) :=
  match d.alloc.allocate with
  | (none, _) => none
  | (some i, a1) =>
    some { alloc := pushFrontCore a1 i d.head v, head := d.head, size := d.size + 1 }

/-- Pointer splice of `Deque::push_back` (deque.hpp lines 131-137), after
`toInsert` (slot `i`) has been allocated: `toInsert->value = value;
prev = head->prev; toInsert->next = head; toInsert->prev = prev;
prev->next = toInsert; head->prev = toInsert`. -/
def pushBackCore {T : Type} (a1 : Alloc (DNode T)) (i hd : Nat) (v : T) :
    Alloc (DNode T) :=
  let a2 := setValue a1 i v
  let prv := pv a2.pool hd
  let a3 := setNext a2 i hd
  let a4 := setPrev a3 i prv
  let a5 := setNext a4 prv i
  setPrev a5 hd i

/-- Embedding of `Deque::push_back` (deque.hpp lines 128-139), with the same
modelling of the unchecked NULL store as `pushFront`. -/
def Deque.pushBack {T : Type} (v : T) (d : Deque T) : Option (Deque T) :=
  match d.alloc.allocate with
  | (none, _) => none
  | (some i, a1) =>
    some { alloc := pushBackCore a1 i d.head v, head := d.head, size := d.size + 1 }

/-- Unlink step of `Deque::pop_front` (deque.hpp lines 113-118):
`toRemove = head->next; next = toRemove->next; head->next = next;
next->prev = head; allocator_.deallocate(toRemove)`. -/
def popFrontCore {T : Type} (a : Alloc (DNode T)) (hd : Nat) : Alloc (DNode T) :=
  let toRemove := nx a.pool hd
  let nxt := nx a.pool toRemove
  let a1 := setNext a hd nxt
  let a2 := setPrev a1 nxt hd
  a2.deallocate (some toRemove)

/-- Embedding of `Deque::pop_front` (deque.hpp lines 109-120): early return
when empty, otherwise bypass `head->next` and return it to the allocator. -/
def Deque.popFront {T : Type} (d : Deque T) : Deque T :=
  if d.size = 0 then d
  else { alloc := popFrontCore d.alloc d.head, head := d.head, size := d.size - 1 }

/-- Unlink step of `Deque::pop_back` (deque.hpp lines 149-154):
`toRemove = head->prev; prev = toRemove->prev; head->prev = prev;
prev->next = head; allocator_.deallocate(toRemove)`. -/
def popBackCore {T : Type} (a : Alloc (DNode T)) (hd : Nat) : Alloc (DNode T) :=
  let toRemove := pv a.pool hd
  let prv := pv a.pool toRemove
  let a1 := setPrev a hd prv
  let a2 := setNext a1 prv hd
  a2.deallocate (some toRemove)

/-- Embedding of `Deque::pop_back` (deque.hpp lines 145-156): early return
when empty, otherwise bypass `head->prev` and return it to the allocator. -/
def Deque.popBack {T : Type} (d : Deque T) : Deque T :=
  if d.size = 0 then d
  else { alloc := popBackCore d.alloc d.head, head := d.head, size := d.size - 1 }

/-- Embedding of `Deque::front` (deque.hpp lines 164-166):
`head->next->value`. -/
def Deque.front {T : Type} (d : Deque T) : T :=
  vl d.alloc.pool (nx d.alloc.pool d.head)

/-- Embedding of `Deque::back` (deque.hpp lines 174-176):
`head->prev->value`. -/
def Deque.back {T : Type} (d : Deque T) : T :=
  vl d.alloc.pool (pv d.alloc.pool d.head)

/-- Iterated `curr = curr->next` (`k` steps from node `i`). -/
def walkNextN {T : Type} (p : Nat → DNode T) : Nat → Nat → Nat
  | i, 0 => i
  | i, k + 1 => walkNextN p (nx p i) k

/-- Embedding of `Deque::operator[]` (deque.hpp lines 187-193):
`curr = head->next`, then `i` times `curr = curr->next` (zero times for a
non-positive `int` index), then `curr->value`. -/
def Deque.get {T : Type} (d : Deque T) (i : Int) : T :=
  vl d.alloc.pool (walkNextN d.alloc.pool (nx d.alloc.pool d.head) i.toNat)

/-- Doubly-linked chain predicate: starting at node `s`, the `next` links
pass through the nodes of `l` in order and end at `e`, with every link
mirrored by the matching `prev` link. -/
def chain {T : Type} (p : Nat → DNode T) : Nat → List Nat → Nat → Prop
  | s, [], e => nx p s = e ∧ pv p e = s
  | s, x :: xs, e => nx p s = x ∧ pv p x = s ∧ chain p x xs e

/-- Ring invariant of a deque: `ring` lists the non-dummy nodes in front to
back order; together with the dummy head they are distinct in-range slots,
the in-use flags mark exactly these slots, `size_` is the ring length, and
the links form one circular doubly-linked chain through them. -/
structure DequeInv {T : Type} (d : Deque T) (ring : List Nat) : Prop where
  nodup : (d.head :: ring).Nodup
  bounded : ∀ x ∈ d.head :: ring, x < d.alloc.poolSize
  takenIff : ∀ x, x < d.alloc.poolSize → (d.alloc.taken x = true ↔ x ∈ d.head :: ring)
  sizeEq : d.size = (ring.length : Int)
  linked : chain d.alloc.pool d.head ring d.head

/-- Values stored in the listed ring nodes, in order. -/
def ringValues {T : Type} (p : Nat → DNode T) (ring : List Nat) : List T :=
  ring.map (vl p)

/-- Abstraction relation: deque state `d` represents the value sequence
`vs`. -/
def DequeRepr {T : Type} (d : Deque T) (vs : List T) : Prop :=
  ∃ ring, DequeInv d ring ∧ ringValues d.alloc.pool ring = vs

theorem nx_setNext_eq {T : Type} (a : Alloc (DNode T)) (i j : Nat) :
    nx (setNext a i j).pool i = j := by
  simp [nx, setNext, setF]

theorem nx_setNext_ne {T : Type} (a : Alloc (DNode T)) (i j k : Nat) (h : k ≠ i) :
    nx (setNext a i j).pool k = nx a.pool k := by
  simp [nx, setNext, setF, h]

theorem nx_setPrev {T : Type} (a : Alloc (DNode T)) (i j k : Nat) :
    nx (setPrev a i j).pool k = nx a.pool k := by
  by_cases h : k = i
  · subst h; simp [nx, setPrev, setF]
  · simp [nx, setPrev, setF, h]

theorem nx_setValue {T : Type} (a : Alloc (DNode T)) (i : Nat) (v : T) (k : Nat) :
    nx (setValue a i v).pool k = nx a.pool k := by
  by_cases h : k = i
  · subst h; simp [nx, setValue, setF]
  · simp [nx, setValue, setF, h]

theorem pv_setPrev_eq {T : Type} (a : Alloc (DNode T)) (i j : Nat) :
    pv (setPrev a i j).pool i = j := by
  simp [pv, setPrev, setF]

theorem pv_setPrev_ne {T : Type} (a : Alloc (DNode T)) (i j k : Nat) (h : k ≠ i) :
    pv (setPrev a i j).pool k = pv a.pool k := by
  simp [pv, setPrev, setF, h]

theorem pv_setNext {T : Type} (a : Alloc (DNode T)) (i j k : Nat) :
    pv (setNext a i j).pool k = pv a.pool k := by
  by_cases h : k = i
  · subst h; simp [pv, setNext, setF]
  · simp [pv, setNext, setF, h]

theorem pv_setValue {T : Type} (a : Alloc (DNode T)) (i : Nat) (v : T) (k : Nat) :
    pv (setValue a i v).pool k = pv a.pool k := by
  by_cases h : k = i
  · subst h; simp [pv, setValue, setF]
  · simp [pv, setValue, setF, h]

theorem vl_setValue_eq {T : Type} (a : Alloc (DNode T)) (i : Nat) (v : T) :
    vl (setValue a i v).pool i = v := by
  simp [vl, setValue, setF]

theorem vl_setValue_ne {T : Type} (a : Alloc (DNode T)) (i : Nat) (v : T) (k : Nat)
    (h : k ≠ i) : vl (setValue a i v).pool k = vl a.pool k := by
  simp [vl, setValue, setF, h]

theorem vl_setNext {T : Type} (a : Alloc (DNode T)) (i j k : Nat) :
    vl (setNext a i j).pool k = vl a.pool k := by
  by_cases h : k = i
  · subst h; simp [vl, setNext, setF]
  · simp [vl, setNext, setF, h]

theorem vl_setPrev {T : Type} (a : Alloc (DNode T)) (i j k : Nat) :
    vl (setPrev a i j).pool k = vl a.pool k := by
  by_cases h : k = i
  · subst h; simp [vl, setPrev, setF]
  · simp [vl, setPrev, setF, h]

theorem allocate_snd_pool {T : Type} (a : Alloc T) : (a.allocate).2.pool = a.pool := by
  unfold Alloc.allocate
  cases a.firstFree <;> rfl

theorem allocate_snd_poolSize {T : Type} (a : Alloc T) :
    (a.allocate).2.poolSize = a.poolSize := by
  unfold Alloc.allocate
  cases a.firstFree <;> rfl

theorem deallocate_pool {T : Type} (a : Alloc T) (p : Option Nat) :
    (a.deallocate p).pool = a.pool := by
  unfold Alloc.deallocate
  cases p with
  | none => rfl
  | some i => by_cases h : i < a.poolSize <;> simp [h]

theorem deallocate_poolSize {T : Type} (a : Alloc T) (p : Option Nat) :
    (a.deallocate p).poolSize = a.poolSize := by
  unfold Alloc.deallocate
  cases p with
  | none => rfl
  | some i => by_cases h : i < a.poolSize <;> simp [h]

theorem setNext_taken {T : Type} (a : Alloc (DNode T)) (i j : Nat) :
    (setNext a i j).taken = a.taken := rfl

theorem setPrev_taken {T : Type} (a : Alloc (DNode T)) (i j : Nat) :
    (setPrev a i j).taken = a.taken := rfl

theorem setValue_taken {T : Type} (a : Alloc (DNode T)) (i : Nat) (v : T) :
    (setValue a i v).taken = a.taken := rfl

theorem setNext_poolSize {T : Type} (a : Alloc (DNode T)) (i j : Nat) :
    (setNext a i j).poolSize = a.poolSize := rfl

theorem setPrev_poolSize {T : Type} (a : Alloc (DNode T)) (i j : Nat) :
    (setPrev a i j).poolSize = a.poolSize := rfl

theorem setValue_poolSize {T : Type} (a : Alloc (DNode T)) (i : Nat) (v : T) :
    (setValue a i v).poolSize = a.poolSize := rfl

theorem setNext_numTaken {T : Type} (a : Alloc (DNode T)) (i j : Nat) :
    (setNext a i j).numTaken = a.numTaken := rfl

theorem setPrev_numTaken {T : Type} (a : Alloc (DNode T)) (i j : Nat) :
    (setPrev a i j).numTaken = a.numTaken := rfl

theorem setValue_numTaken {T : Type} (a : Alloc (DNode T)) (i : Nat) (v : T) :
    (setValue a i v).numTaken = a.numTaken := rfl

theorem chain_congr {T : Type} (p q : Nat → DNode T) :
    ∀ (l : List Nat) (s e : Nat),
      (∀ x ∈ s :: l, nx q x = nx p x) →
      (∀ x ∈ l ++ [e], pv q x = pv p x) →
      chain p s l e → chain q s l e := by
  intro l
  induction l with
  | nil =>
    intro s e hnx hpv hch
    obtain ⟨h1, h2⟩ := hch
    exact ⟨by rw [hnx s (by simp)]; exact h1, by rw [hpv e (by simp)]; exact h2⟩
  | cons x xs ih =>
    intro s e hnx hpv hch
    obtain ⟨h1, h2, h3⟩ := hch
    refine ⟨by rw [hnx s (by simp)]; exact h1, by rw [hpv x (by simp)]; exact h2, ?_⟩
    apply ih x e
    · intro y hy
      apply hnx
      simp at hy
      simp [hy]
    · intro y hy
      apply hpv
      simp at hy
      rcases hy with hy | hy <;> simp [hy]
    · exact h3

theorem chain_walk {T : Type} (p : Nat → DNode T) :
    ∀ (l : List Nat) (s e : Nat), chain p s l e →
      ∀ (k : Nat) (hk : k < l.length), walkNextN p (nx p s) k = l.get ⟨k, hk⟩ := by
  intro l
  induction l with
  | nil => intro s e _ k hk; simp at hk
  | cons x xs ih =>
    intro s e hch k hk
    obtain ⟨h1, h2, h3⟩ := hch
    cases k with
    | zero => simpa [walkNextN] using h1
    | succ m =>
      have hm : m < xs.length := by simpa using hk
      have hrec := ih x e h3 m hm
      show walkNextN p (nx p (nx p s)) m = (x :: xs).get ⟨m + 1, hk⟩
      rw [h1]
      simpa using hrec

theorem chain_walk_end {T : Type} (p : Nat → DNode T) :
    ∀ (l : List Nat) (s e : Nat), chain p s l e →
      walkNextN p (nx p s) l.length = e := by
  intro l
  induction l with
  | nil =>
    intro s e hch
    simpa [walkNextN] using hch.1
  | cons x xs ih =>
    intro s e hch
    obtain ⟨h1, _, h3⟩ := hch
    show walkNextN p (nx p (nx p s)) xs.length = e
    rw [h1]
    exact ih x e h3

theorem chain_walk_cycle {T : Type} (p : Nat → DNode T) (l : List Nat) (s : Nat)
    (hch : chain p s l s) : walkNextN p s (l.length + 1) = s :=
  chain_walk_end p l s s hch

theorem chain_pv_nx {T : Type} (p : Nat → DNode T) :
    ∀ (l : List Nat) (s e : Nat), chain p s l e →
      ∀ x ∈ s :: l, pv p (nx p x) = x := by
  intro l
  induction l with
  | nil =>
    intro s e hch x hx
    simp at hx
    subst hx
    rw [hch.1, hch.2]
  | cons y ys ih =>
    intro s e hch x hx
    obtain ⟨h1, h2, h3⟩ := hch
    simp at hx
    rcases hx with hx | hx | hx
    · rw [hx, h1, h2]
    · rw [hx]
      exact ih y e h3 y (by simp)
    · exact ih y e h3 x (by simp [hx])

theorem chain_nx_pv {T : Type} (p : Nat → DNode T) :
    ∀ (l : List Nat) (s e : Nat), chain p s l e →
      ∀ x ∈ l ++ [e], nx p (pv p x) = x := by
  intro l
  induction l with
  | nil =>
    intro s e hch x hx
    simp at hx
    subst hx
    rw [hch.2, hch.1]
  | cons y ys ih =>
    intro s e hch x hx
    obtain ⟨h1, h2, h3⟩ := hch
    simp at hx
    rcases hx with hx | hx | hx
    · rw [hx, h2, h1]
    · exact ih y e h3 x (by simp [hx])
    · rw [hx]
      exact ih y e h3 e (by simp)

theorem chain_append {T : Type} (p : Nat → DNode T) :
    ∀ (l1 : List Nat) (s x : Nat) (l2 : List Nat) (e : Nat),
      chain p s (l1 ++ x :: l2) e ↔ chain p s l1 x ∧ chain p x l2 e := by
  intro l1
  induction l1 with
  | nil =>
    intro s x l2 e
    show (nx p s = x ∧ pv p x = s ∧ chain p x l2 e) ↔
      (nx p s = x ∧ pv p x = s) ∧ chain p x l2 e
    tauto
  | cons y ys ih =>
    intro s x l2 e
    show (nx p s = y ∧ pv p y = s ∧ chain p y (ys ++ x :: l2) e) ↔
      (nx p s = y ∧ pv p y = s ∧ chain p y ys x) ∧ chain p x l2 e
    rw [ih y x l2 e]
    tauto

theorem chain_concat {T : Type} (p : Nat → DNode T) (l : List Nat) (s b e : Nat) :
    chain p s (l ++ [b]) e ↔ chain p s l b ∧ nx p b = e ∧ pv p e = b := by
  rw [chain_append p l s b [] e]
  show chain p s l b ∧ (nx p b = e ∧ pv p e = b) ↔ _
  tauto

theorem chain_walk_concat {T : Type} (p : Nat → DNode T) :
    ∀ (l : List Nat) (s b e : Nat), chain p s (l ++ [b]) e →
      walkNextN p (nx p s) l.length = b := by
  intro l
  induction l with
  | nil =>
    intro s b e hch
    simpa [walkNextN] using hch.1
  | cons y ys ih =>
    intro s b e hch
    obtain ⟨h1, _, h3⟩ := hch
    show walkNextN p (nx p (nx p s)) ys.length = b
    rw [h1]
    exact ih y b e h3

theorem pushFrontCore_nx_hd {T : Type} (a1 : Alloc (DNode T)) (i hd : Nat) (v : T) :
    nx (pushFrontCore a1 i hd v).pool hd = i := by
  unfold pushFrontCore
  rw [nx_setNext_eq]

theorem pushFrontCore_nx_i {T : Type} (a1 : Alloc (DNode T)) (i hd : Nat) (v : T)
    (h : i ≠ hd) : nx (pushFrontCore a1 i hd v).pool i = nx a1.pool hd := by
  unfold pushFrontCore
  rw [nx_setNext_ne _ _ _ _ h, nx_setPrev, nx_setPrev, nx_setNext_eq, nx_setValue]

theorem pushFrontCore_nx_other {T : Type} (a1 : Alloc (DNode T)) (i hd : Nat) (v : T)
    (x : Nat) (h1 : x ≠ hd) (h2 : x ≠ i) :
    nx (pushFrontCore a1 i hd v).pool x = nx a1.pool x := by
  unfold pushFrontCore
  rw [nx_setNext_ne _ _ _ _ h1, nx_setPrev, nx_setPrev, nx_setNext_ne _ _ _ _ h2,
    nx_setValue]

theorem pushFrontCore_pv_i {T : Type} (a1 : Alloc (DNode T)) (i hd : Nat) (v : T)
    (h : nx a1.pool hd ≠ i) : pv (pushFrontCore a1 i hd v).pool i = hd := by
  unfold pushFrontCore
  have hnxt : nx (setValue a1 i v).pool hd = nx a1.pool hd := nx_setValue a1 i v hd
  rw [pv_setNext, hnxt, pv_setPrev_ne _ _ _ _ (fun hie => h hie.symm), pv_setPrev_eq]

theorem pushFrontCore_pv_nxt {T : Type} (a1 : Alloc (DNode T)) (i hd : Nat) (v : T) :
    pv (pushFrontCore a1 i hd v).pool (nx a1.pool hd) = i := by
  unfold pushFrontCore
  have hnxt : nx (setValue a1 i v).pool hd = nx a1.pool hd := nx_setValue a1 i v hd
  rw [pv_setNext, hnxt, pv_setPrev_eq]

theorem pushFrontCore_pv_other {T : Type} (a1 : Alloc (DNode T)) (i hd : Nat) (v : T)
    (x : Nat) (h1 : x ≠ nx a1.pool hd) (h2 : x ≠ i) :
    pv (pushFrontCore a1 i hd v).pool x = pv a1.pool x := by
  unfold pushFrontCore
  have hnxt : nx (setValue a1 i v).pool hd = nx a1.pool hd := nx_setValue a1 i v hd
  rw [pv_setNext, hnxt, pv_setPrev_ne _ _ _ _ h1, pv_setPrev_ne _ _ _ _ h2,
    pv_setNext, pv_setValue]

theorem pushFrontCore_vl_i {T : Type} (a1 : Alloc (DNode T)) (i hd : Nat) (v : T) :
    vl (pushFrontCore a1 i hd v).pool i = v := by
  unfold pushFrontCore
  rw [vl_setNext, vl_setPrev, vl_setPrev, vl_setNext, vl_setValue_eq]

theorem pushFrontCore_vl_other {T : Type} (a1 : Alloc (DNode T)) (i hd : Nat) (v : T)
    (x : Nat) (h : x ≠ i) :
    vl (pushFrontCore a1 i hd v).pool x = vl a1.pool x := by
  unfold pushFrontCore
  rw [vl_setNext, vl_setPrev, vl_setPrev, vl_setNext, vl_setValue_ne _ _ _ _ h]

theorem pushFrontCore_taken {T : Type} (a1 : Alloc (DNode T)) (i hd : Nat) (v : T) :
    (pushFrontCore a1 i hd v).taken = a1.taken := rfl

theorem pushFrontCore_poolSize {T : Type} (a1 : Alloc (DNode T)) (i hd : Nat) (v : T) :
    (pushFrontCore a1 i hd v).poolSize = a1.poolSize := rfl

theorem pushFrontCore_numTaken {T : Type} (a1 : Alloc (DNode T)) (i hd : Nat) (v : T) :
    (pushFrontCore a1 i hd v).numTaken = a1.numTaken := rfl

theorem pushBackCore_pv_hd {T : Type} (a1 : Alloc (DNode T)) (i hd : Nat) (v : T) :
    pv (pushBackCore a1 i hd v).pool hd = i := by
  unfold pushBackCore
  rw [pv_setPrev_eq]

theorem pushBackCore_pv_i {T : Type} (a1 : Alloc (DNode T)) (i hd : Nat) (v : T)
    (h : i ≠ hd) : pv (pushBackCore a1 i hd v).pool i = pv a1.pool hd := by
  unfold pushBackCore
  have hprv : pv (setValue a1 i v).pool hd = pv a1.pool hd := pv_setValue a1 i v hd
  rw [pv_setPrev_ne _ _ _ _ h, pv_setNext, hprv, pv_setPrev_eq]

theorem pushBackCore_pv_other {T : Type} (a1 : Alloc (DNode T)) (i hd : Nat) (v : T)
    (x : Nat) (h1 : x ≠ hd) (h2 : x ≠ i) :
    pv (pushBackCore a1 i hd v).pool x = pv a1.pool x := by
  unfold pushBackCore
  have hprv : pv (setValue a1 i v).pool hd = pv a1.pool hd := pv_setValue a1 i v hd
  rw [pv_setPrev_ne _ _ _ _ h1, pv_setNext, hprv, pv_setPrev_ne _ _ _ _ h2,
    pv_setNext, pv_setValue]

theorem pushBackCore_nx_prv {T : Type} (a1 : Alloc (DNode T)) (i hd : Nat) (v : T) :
    nx (pushBackCore a1 i hd v).pool (pv a1.pool hd) = i := by
  unfold pushBackCore
  have hprv : pv (setValue a1 i v).pool hd = pv a1.pool hd := pv_setValue a1 i v hd
  rw [nx_setPrev, hprv, nx_setNext_eq]

theorem pushBackCore_nx_i {T : Type} (a1 : Alloc (DNode T)) (i hd : Nat) (v : T)
    (h : pv a1.pool hd ≠ i) : nx (pushBackCore a1 i hd v).pool i = hd := by
  unfold pushBackCore
  have hprv : pv (setValue a1 i v).pool hd = pv a1.pool hd := pv_setValue a1 i v hd
  rw [nx_setPrev, hprv, nx_setNext_ne _ _ _ _ (fun hie => h hie.symm), nx_setPrev,
    nx_setNext_eq]

theorem pushBackCore_nx_other {T : Type} (a1 : Alloc (DNode T)) (i hd : Nat) (v : T)
    (x : Nat) (h1 : x ≠ pv a1.pool hd) (h2 : x ≠ i) :
    nx (pushBackCore a1 i hd v).pool x = nx a1.pool x := by
  unfold pushBackCore
  have hprv : pv (setValue a1 i v).pool hd = pv a1.pool hd := pv_setValue a1 i v hd
  rw [nx_setPrev, hprv, nx_setNext_ne _ _ _ _ h1, nx_setPrev,
    nx_setNext_ne _ _ _ _ h2, nx_setValue]

theorem pushBackCore_vl_i {T : Type} (a1 : Alloc (DNode T)) (i hd : Nat) (v : T) :
    vl (pushBackCore a1 i hd v).pool i = v := by
  unfold pushBackCore
  rw [vl_setPrev, vl_setNext, vl_setPrev, vl_setNext, vl_setValue_eq]

theorem pushBackCore_vl_other {T : Type} (a1 : Alloc (DNode T)) (i hd : Nat) (v : T)
    (x : Nat) (h : x ≠ i) :
    vl (pushBackCore a1 i hd v).pool x = vl a1.pool x := by
  unfold pushBackCore
  rw [vl_setPrev, vl_setNext, vl_setPrev, vl_setNext, vl_setValue_ne _ _ _ _ h]

theorem pushBackCore_taken {T : Type} (a1 : Alloc (DNode T)) (i hd : Nat) (v : T) :
    (pushBackCore a1 i hd v).taken = a1.taken := rfl

theorem pushBackCore_poolSize {T : Type} (a1 : Alloc (DNode T)) (i hd : Nat) (v : T) :
    (pushBackCore a1 i hd v).poolSize = a1.poolSize := rfl

theorem pushBackCore_numTaken {T : Type} (a1 : Alloc (DNode T)) (i hd : Nat) (v : T) :
    (pushBackCore a1 i hd v).numTaken = a1.numTaken := rfl

theorem allocate_fst_eq_firstFree {T : Type} (a : Alloc T) :
    (a.allocate).1 = a.firstFree := by
  unfold Alloc.allocate
  cases a.firstFree <;> rfl

theorem allocate_snd_taken_of_some {T : Type} (a : Alloc T) (i : Nat)
    (h : (a.allocate).1 = some i) :
    (a.allocate).2.taken = setF a.taken i true := by
  rw [allocate_fst_eq_firstFree] at h
  unfold Alloc.allocate
  rw [h]

theorem allocate_snd_numTaken_of_some {T : Type} (a : Alloc T) (i : Nat)
    (h : (a.allocate).1 = some i) :
    (a.allocate).2.numTaken = a.numTaken + 1 := by
  rw [allocate_fst_eq_firstFree] at h
  unfold Alloc.allocate
  rw [h]

theorem pushFront_inv {T : Type} (v : T) (d d' : Deque T) (ring : List Nat)
    (hinv : DequeInv d ring) (hp : Deque.pushFront v d = some d') :
    ∃ i, i < d.alloc.poolSize ∧ d.alloc.taken i = false ∧ DequeInv d' (i :: ring) ∧
      d'.head = d.head ∧
      ringValues d'.alloc.pool (i :: ring) = v :: ringValues d.alloc.pool ring ∧
      d'.alloc.numTaken = d.alloc.numTaken + 1 ∧
      d'.alloc.poolSize = d.alloc.poolSize ∧
      d'.size = d.size + 1 := by
  unfold Deque.pushFront at hp
  cases hA : d.alloc.allocate with
  | mk o a1 =>
    rw [hA] at hp
    cases o with
    | none => simp at hp
    | some i =>
      rw [Option.some.injEq] at hp
      subst hp
      have hfst : (d.alloc.allocate).1 = some i := by rw [hA]
      have hff : d.alloc.firstFree = some i := by
        rw [← allocate_fst_eq_firstFree, hfst]
      obtain ⟨-, hilt0, hifree, -⟩ :=
        scanFrom_some_spec d.alloc.taken d.alloc.poolSize 0 i hff
      have hilt : i < d.alloc.poolSize := by omega
      have ha1pool : a1.pool = d.alloc.pool := by
        have := allocate_snd_pool d.alloc
        rw [hA] at this
        exact this
      have ha1taken : a1.taken = setF d.alloc.taken i true := by
        have := allocate_snd_taken_of_some d.alloc i hfst
        rw [hA] at this
        exact this
      have ha1num : a1.numTaken = d.alloc.numTaken + 1 := by
        have := allocate_snd_numTaken_of_some d.alloc i hfst
        rw [hA] at this
        exact this
      have ha1ps : a1.poolSize = d.alloc.poolSize := by
        have := allocate_snd_poolSize d.alloc
        rw [hA] at this
        exact this
      have hifresh : i ∉ d.head :: ring := by
        intro hmem
        have := (hinv.takenIff i hilt).2 hmem
        rw [hifree] at this
        cases this
      have hihd : i ≠ d.head := fun h => hifresh (h ▸ List.mem_cons_self _ _)
      have hiring : i ∉ ring := fun h => hifresh (List.mem_cons_of_mem _ h)
      have hheadring : d.head ∉ ring := (List.nodup_cons.1 hinv.nodup).1
      have hringnd : ring.Nodup := (List.nodup_cons.1 hinv.nodup).2
      refine ⟨i, hilt, hifree, ?_, rfl, ?_, ?_, ?_, rfl⟩
      · constructor
        · rw [List.nodup_cons]
          refine ⟨?_, List.nodup_cons.2 ⟨hiring, hringnd⟩⟩
          intro hmem
          rcases List.mem_cons.1 hmem with h | h
          · exact hihd h.symm
          · exact hheadring h
        · intro x hx
          show x < (pushFrontCore a1 i d.head v).poolSize
          rw [pushFrontCore_poolSize, ha1ps]
          rcases List.mem_cons.1 hx with h | h
          · rw [h]
            exact hinv.bounded d.head (List.mem_cons_self _ _)
          · rcases List.mem_cons.1 h with h2 | h2
            · rw [h2]
              exact hilt
            · exact hinv.bounded x (List.mem_cons_of_mem _ h2)
        · intro x hx
          show ((pushFrontCore a1 i d.head v).taken x = true ↔ _)
          rw [pushFrontCore_taken, ha1taken]
          have hxps : x < d.alloc.poolSize := by
            have : x < (pushFrontCore a1 i d.head v).poolSize := hx
            rw [pushFrontCore_poolSize, ha1ps] at this
            exact this
          by_cases hxi : x = i
          · subst hxi
            rw [setF_eq]
            simp
          · rw [setF_ne _ _ _ _ hxi, hinv.takenIff x hxps]
            simp only [List.mem_cons]
            constructor
            · rintro (h | h)
              · exact Or.inl h
              · exact Or.inr (Or.inr h)
            · rintro (h | h | h)
              · exact Or.inl h
              · exact absurd h hxi
              · exact Or.inr h
        · show d.size + 1 = ((i :: ring).length : Int)
          rw [hinv.sizeEq]
          push_cast
          simp
        · show chain (pushFrontCore a1 i d.head v).pool d.head (i :: ring) d.head
          cases hring : ring with
          | nil =>
            have hl := hinv.linked
            rw [hring] at hl
            obtain ⟨hl1, hl2⟩ := hl
            have hnxt : nx a1.pool d.head = d.head := by rw [ha1pool]; exact hl1
            refine ⟨pushFrontCore_nx_hd a1 i d.head v, ?_, ?_, ?_⟩
            · rw [pushFrontCore_pv_i a1 i d.head v (by rw [hnxt]; exact fun h => hihd h.symm)]
            · rw [pushFrontCore_nx_i a1 i d.head v hihd, hnxt]
            · have := pushFrontCore_pv_nxt a1 i d.head v
              rw [hnxt] at this
              exact this
          | cons x xs =>
            have hl := hinv.linked
            rw [hring] at hl
            obtain ⟨hl1, hl2, hl3⟩ := hl
            have hxring : x ∈ ring := by rw [hring]; exact List.mem_cons_self _ _
            have hnxt : nx a1.pool d.head = x := by rw [ha1pool]; exact hl1
            have hxi : x ≠ i := fun h => hiring (h ▸ hxring)
            have hxsnd : x ∉ xs := by
              have := hringnd
              rw [hring, List.nodup_cons] at this
              exact this.1
            refine ⟨pushFrontCore_nx_hd a1 i d.head v, ?_, ?_, ?_, ?_⟩
            · rw [pushFrontCore_pv_i a1 i d.head v (by rw [hnxt]; exact hxi)]
            · rw [pushFrontCore_nx_i a1 i d.head v hihd, hnxt]
            · have := pushFrontCore_pv_nxt a1 i d.head v
              rw [hnxt] at this
              exact this
            · apply chain_congr d.alloc.pool (pushFrontCore a1 i d.head v).pool xs x d.head
              · intro y hy
                have hyring : y ∈ ring := by rw [hring]; exact hy
                have hyhd : y ≠ d.head := fun h => hheadring (h ▸ hyring)
                have hyi : y ≠ i := fun h => hiring (h ▸ hyring)
                rw [pushFrontCore_nx_other a1 i d.head v y hyhd hyi, ha1pool]
              · intro y hy
                rcases List.mem_append.1 hy with h | h
                · have hyring : y ∈ ring := by
                    rw [hring]
                    exact List.mem_cons_of_mem _ h
                  have hyx : y ≠ x := fun hEq => hxsnd (hEq ▸ h)
                  have hyi : y ≠ i := fun hEq => hiring (hEq ▸ hyring)
                  rw [pushFrontCore_pv_other a1 i d.head v y (by rw [hnxt]; exact hyx) hyi,
                    ha1pool]
                · have hyhead : y = d.head := by simpa using h
                  have hyx : y ≠ x := by
                    rw [hyhead]
                    exact fun hEq => hheadring (hEq ▸ hxring)
                  have hyi : y ≠ i := by
                    rw [hyhead]
                    exact fun hEq => hihd hEq.symm
                  rw [pushFrontCore_pv_other a1 i d.head v y (by rw [hnxt]; exact hyx) hyi,
                    ha1pool]
              · exact hl3
      · show List.map (vl (pushFrontCore a1 i d.head v).pool) (i :: ring) =
          v :: List.map (vl d.alloc.pool) ring
        rw [List.map_cons]
        congr 1
        · exact pushFrontCore_vl_i a1 i d.head v
        · apply List.map_congr_left
          intro y hy
          have hyi : y ≠ i := fun h => hiring (h ▸ hy)
          rw [pushFrontCore_vl_other a1 i d.head v y hyi, ha1pool]
      · show (pushFrontCore a1 i d.head v).numTaken = d.alloc.numTaken + 1
        rw [pushFrontCore_numTaken, ha1num]
      · show (pushFrontCore a1 i d.head v).poolSize = d.alloc.poolSize
        rw [pushFrontCore_poolSize, ha1ps]

theorem pushBack_inv {T : Type} (v : T) (d d' : Deque T) (ring : List Nat)
    (hinv : DequeInv d ring) (hp : Deque.pushBack v d = some d') :
    ∃ i, i < d.alloc.poolSize ∧ d.alloc.taken i = false ∧
      DequeInv d' (ring ++ [i]) ∧ d'.head = d.head ∧
      ringValues d'.alloc.pool (ring ++ [i]) = ringValues d.alloc.pool ring ++ [v] ∧
      d'.alloc.numTaken = d.alloc.numTaken + 1 ∧
      d'.alloc.poolSize = d.alloc.poolSize ∧
      d'.size = d.size + 1 := by
  unfold Deque.pushBack at hp
  cases hA : d.alloc.allocate with
  | mk o a1 =>
    rw [hA] at hp
    cases o with
    | none => simp at hp
    | some i =>
      rw [Option.some.injEq] at hp
      subst hp
      have hfst : (d.alloc.allocate).1 = some i := by rw [hA]
      have hff : d.alloc.firstFree = some i := by
        rw [← allocate_fst_eq_firstFree, hfst]
      obtain ⟨-, hilt0, hifree, -⟩ :=
        scanFrom_some_spec d.alloc.taken d.alloc.poolSize 0 i hff
      have hilt : i < d.alloc.poolSize := by omega
      have ha1pool : a1.pool = d.alloc.pool := by
        have := allocate_snd_pool d.alloc
        rw [hA] at this
        exact this
      have ha1taken : a1.taken = setF d.alloc.taken i true := by
        have := allocate_snd_taken_of_some d.alloc i hfst
        rw [hA] at this
        exact this
      have ha1num : a1.numTaken = d.alloc.numTaken + 1 := by
        have := allocate_snd_numTaken_of_some d.alloc i hfst
        rw [hA] at this
        exact this
      have ha1ps : a1.poolSize = d.alloc.poolSize := by
        have := allocate_snd_poolSize d.alloc
        rw [hA] at this
        exact this
      have hifresh : i ∉ d.head :: ring := by
        intro hmem
        have := (hinv.takenIff i hilt).2 hmem
        rw [hifree] at this
        cases this
      have hihd : i ≠ d.head := fun h => hifresh (h ▸ List.mem_cons_self _ _)
      have hiring : i ∉ ring := fun h => hifresh (List.mem_cons_of_mem _ h)
      have hheadring : d.head ∉ ring := (List.nodup_cons.1 hinv.nodup).1
      have hringnd : ring.Nodup := (List.nodup_cons.1 hinv.nodup).2
      have hpvmem : pv d.alloc.pool d.head ∈ d.head :: ring := by
        rcases List.eq_nil_or_concat' ring with hr | ⟨L, b, hr⟩
        · have hl := hinv.linked
          rw [hr] at hl
          obtain ⟨-, hl2⟩ := hl
          rw [hl2]
          exact List.mem_cons_self _ _
        · have hl := hinv.linked
          rw [hr] at hl
          obtain ⟨-, -, hpb⟩ := (chain_concat _ _ _ _ _).1 hl
          rw [hpb]
          exact List.mem_cons_of_mem _
            (by rw [hr]; exact List.mem_append.2 (Or.inr (List.mem_cons_self _ _)))
      have hprvi : pv d.alloc.pool d.head ≠ i := fun h => hifresh (h ▸ hpvmem)
      refine ⟨i, hilt, hifree, ?_, rfl, ?_, ?_, ?_, rfl⟩
      · constructor
        · rw [List.nodup_cons]
          refine ⟨?_, ?_⟩
          · intro hmem
            rcases List.mem_append.1 hmem with h | h
            · exact hheadring h
            · have : d.head = i := by simpa using h
              exact hihd this.symm
          · rw [List.nodup_append]
            refine ⟨hringnd, List.nodup_cons.2 ⟨by simp, List.nodup_nil⟩, ?_⟩
            intro y hy hyi
            have : y = i := by simpa using hyi
            exact hiring (this ▸ hy)
        · intro x hx
          show x < (pushBackCore a1 i d.head v).poolSize
          rw [pushBackCore_poolSize, ha1ps]
          rcases List.mem_cons.1 hx with h | h
          · rw [h]
            exact hinv.bounded d.head (List.mem_cons_self _ _)
          · rcases List.mem_append.1 h with h2 | h2
            · exact hinv.bounded x (List.mem_cons_of_mem _ h2)
            · have : x = i := by simpa using h2
              rw [this]
              exact hilt
        · intro x hx
          show ((pushBackCore a1 i d.head v).taken x = true ↔ _)
          rw [pushBackCore_taken, ha1taken]
          have hxps : x < d.alloc.poolSize := by
            have : x < (pushBackCore a1 i d.head v).poolSize := hx
            rw [pushBackCore_poolSize, ha1ps] at this
            exact this
          by_cases hxi : x = i
          · rw [hxi, setF_eq]
            simp
          · rw [setF_ne _ _ _ _ hxi, hinv.takenIff x hxps]
            simp only [List.mem_cons, List.mem_append]
            constructor
            · rintro (h | h)
              · exact Or.inl h
              · exact Or.inr (Or.inl h)
            · rintro (h | h | h)
              · exact Or.inl h
              · exact Or.inr h
              · have : x = i := by simpa using h
                exact absurd this hxi
        · show d.size + 1 = (((ring ++ [i]).length : Nat) : Int)
          rw [hinv.sizeEq]
          simp
        · show chain (pushBackCore a1 i d.head v).pool d.head (ring ++ [i]) d.head
          rw [chain_concat]
          refine ⟨?_, ?_, pushBackCore_pv_hd a1 i d.head v⟩
          · rcases List.eq_nil_or_concat' ring with hr | ⟨L, b, hr⟩
            · rw [hr]
              have hl := hinv.linked
              rw [hr] at hl
              obtain ⟨-, hl2⟩ := hl
              have hprv : pv a1.pool d.head = d.head := by rw [ha1pool, hl2]
              constructor
              · have := pushBackCore_nx_prv a1 i d.head v
                rw [hprv] at this
                exact this
              · rw [pushBackCore_pv_i a1 i d.head v hihd, ha1pool, hl2]
            · rw [hr]
              have hl := hinv.linked
              rw [hr] at hl
              obtain ⟨hcl, hnb, hpb⟩ := (chain_concat _ _ _ _ _).1 hl
              have hprv : pv a1.pool d.head = b := by rw [ha1pool, hpb]
              have hbring : b ∈ ring := by
                rw [hr]
                exact List.mem_append.2 (Or.inr (List.mem_cons_self _ _))
              have hbi : b ≠ i := fun h => hiring (h ▸ hbring)
              have hbhd : b ≠ d.head := fun h => hheadring (h ▸ hbring)
              have hbL : b ∉ L := by
                have hnd := hringnd
                rw [hr, List.nodup_append] at hnd
                intro hbL
                exact hnd.2.2 hbL (List.mem_cons_self _ _)
              rw [chain_concat]
              refine ⟨?_, ?_, ?_⟩
              · apply chain_congr d.alloc.pool (pushBackCore a1 i d.head v).pool L d.head b
                · intro y hy
                  rcases List.mem_cons.1 hy with h | h
                  · have hyb : y ≠ pv a1.pool d.head := by
                      rw [hprv, h]
                      exact fun hEq => hbhd hEq.symm
                    have hyi : y ≠ i := by
                      rw [h]
                      exact fun hEq => hihd hEq.symm
                    rw [pushBackCore_nx_other a1 i d.head v y hyb hyi, ha1pool]
                  · have hyring : y ∈ ring := by
                      rw [hr]
                      exact List.mem_append.2 (Or.inl h)
                    have hyb : y ≠ pv a1.pool d.head := by
                      rw [hprv]
                      exact fun hEq => hbL (hEq ▸ h)
                    have hyi : y ≠ i := fun hEq => hiring (hEq ▸ hyring)
                    rw [pushBackCore_nx_other a1 i d.head v y hyb hyi, ha1pool]
                · intro y hy
                  have hyring : y ∈ ring := by
                    rw [hr]
                    rcases List.mem_append.1 hy with h | h
                    · exact List.mem_append.2 (Or.inl h)
                    · exact List.mem_append.2 (Or.inr h)
                  have hyhd : y ≠ d.head := fun hEq => hheadring (hEq ▸ hyring)
                  have hyi : y ≠ i := fun hEq => hiring (hEq ▸ hyring)
                  rw [pushBackCore_pv_other a1 i d.head v y hyhd hyi, ha1pool]
                · exact hcl
              · have := pushBackCore_nx_prv a1 i d.head v
                rw [hprv] at this
                exact this
              · rw [pushBackCore_pv_i a1 i d.head v hihd, ha1pool, hpb]
          · rw [pushBackCore_nx_i a1 i d.head v (by rw [ha1pool]; exact hprvi)]
      · show List.map (vl (pushBackCore a1 i d.head v).pool) (ring ++ [i]) =
          List.map (vl d.alloc.pool) ring ++ [v]
        rw [List.map_append]
        congr 1
        · apply List.map_congr_left
          intro y hy
          have hyi : y ≠ i := fun h => hiring (h ▸ hy)
          rw [pushBackCore_vl_other a1 i d.head v y hyi, ha1pool]
        · rw [List.map_cons, List.map_nil, pushBackCore_vl_i]
      · show (pushBackCore a1 i d.head v).numTaken = d.alloc.numTaken + 1
        rw [pushBackCore_numTaken, ha1num]
      · show (pushBackCore a1 i d.head v).poolSize = d.alloc.poolSize
        rw [pushBackCore_poolSize, ha1ps]

theorem deallocate_taken_of_lt {T : Type} (a : Alloc T) (i : Nat) (h : i < a.poolSize) :
    (a.deallocate (some i)).taken = setF a.taken i false := by
  simp [Alloc.deallocate, h]

theorem deallocate_numTaken_of_lt {T : Type} (a : Alloc T) (i : Nat)
    (h : i < a.poolSize) : (a.deallocate (some i)).numTaken = a.numTaken - 1 := by
  simp [Alloc.deallocate, h]

theorem popFrontCore_nx_hd {T : Type} (a : Alloc (DNode T)) (hd : Nat) :
    nx (popFrontCore a hd).pool hd = nx a.pool (nx a.pool hd) := by
  simp only [popFrontCore]
  rw [deallocate_pool, nx_setPrev, nx_setNext_eq]

theorem popFrontCore_pv_nxt {T : Type} (a : Alloc (DNode T)) (hd : Nat) :
    pv (popFrontCore a hd).pool (nx a.pool (nx a.pool hd)) = hd := by
  simp only [popFrontCore]
  rw [deallocate_pool, pv_setPrev_eq]

theorem popFrontCore_nx_other {T : Type} (a : Alloc (DNode T)) (hd : Nat) (y : Nat)
    (h : y ≠ hd) : nx (popFrontCore a hd).pool y = nx a.pool y := by
  simp only [popFrontCore]
  rw [deallocate_pool, nx_setPrev, nx_setNext_ne _ _ _ _ h]

theorem popFrontCore_pv_other {T : Type} (a : Alloc (DNode T)) (hd : Nat) (y : Nat)
    (h : y ≠ nx a.pool (nx a.pool hd)) :
    pv (popFrontCore a hd).pool y = pv a.pool y := by
  simp only [popFrontCore]
  rw [deallocate_pool, pv_setPrev_ne _ _ _ _ h, pv_setNext]

theorem popFrontCore_vl {T : Type} (a : Alloc (DNode T)) (hd : Nat) (y : Nat) :
    vl (popFrontCore a hd).pool y = vl a.pool y := by
  simp only [popFrontCore]
  rw [deallocate_pool, vl_setPrev, vl_setNext]

theorem popFrontCore_taken {T : Type} (a : Alloc (DNode T)) (hd : Nat)
    (h : nx a.pool hd < a.poolSize) :
    (popFrontCore a hd).taken = setF a.taken (nx a.pool hd) false := by
  simp only [popFrontCore]
  have h2 : nx a.pool hd < (setPrev (setNext a hd (nx a.pool (nx a.pool hd)))
      (nx a.pool (nx a.pool hd)) hd).poolSize := h
  rw [deallocate_taken_of_lt _ _ h2]
  rfl

theorem popFrontCore_numTaken {T : Type} (a : Alloc (DNode T)) (hd : Nat)
    (h : nx a.pool hd < a.poolSize) :
    (popFrontCore a hd).numTaken = a.numTaken - 1 := by
  simp only [popFrontCore]
  have h2 : nx a.pool hd < (setPrev (setNext a hd (nx a.pool (nx a.pool hd)))
      (nx a.pool (nx a.pool hd)) hd).poolSize := h
  rw [deallocate_numTaken_of_lt _ _ h2]
  rfl

theorem popFrontCore_poolSize {T : Type} (a : Alloc (DNode T)) (hd : Nat) :
    (popFrontCore a hd).poolSize = a.poolSize := by
  simp only [popFrontCore]
  rw [deallocate_poolSize]
  rfl

theorem popBackCore_pv_hd {T : Type} (a : Alloc (DNode T)) (hd : Nat) :
    pv (popBackCore a hd).pool hd = pv a.pool (pv a.pool hd) := by
  simp only [popBackCore]
  rw [deallocate_pool, pv_setNext, pv_setPrev_eq]

theorem popBackCore_nx_prv {T : Type} (a : Alloc (DNode T)) (hd : Nat) :
    nx (popBackCore a hd).pool (pv a.pool (pv a.pool hd)) = hd := by
  simp only [popBackCore]
  rw [deallocate_pool, nx_setNext_eq]

theorem popBackCore_pv_other {T : Type} (a : Alloc (DNode T)) (hd : Nat) (y : Nat)
    (h : y ≠ hd) : pv (popBackCore a hd).pool y = pv a.pool y := by
  simp only [popBackCore]
  rw [deallocate_pool, pv_setNext, pv_setPrev_ne _ _ _ _ h]

theorem popBackCore_nx_other {T : Type} (a : Alloc (DNode T)) (hd : Nat) (y : Nat)
    (h : y ≠ pv a.pool (pv a.pool hd)) :
    nx (popBackCore a hd).pool y = nx a.pool y := by
  simp only [popBackCore]
  rw [deallocate_pool, nx_setNext_ne _ _ _ _ h, nx_setPrev]

theorem popBackCore_vl {T : Type} (a : Alloc (DNode T)) (hd : Nat) (y : Nat) :
    vl (popBackCore a hd).pool y = vl a.pool y := by
  simp only [popBackCore]
  rw [deallocate_pool, vl_setNext, vl_setPrev]

theorem popBackCore_taken {T : Type} (a : Alloc (DNode T)) (hd : Nat)
    (h : pv a.pool hd < a.poolSize) :
    (popBackCore a hd).taken = setF a.taken (pv a.pool hd) false := by
  simp only [popBackCore]
  have h2 : pv a.pool hd < (setNext (setPrev a hd (pv a.pool (pv a.pool hd)))
      (pv a.pool (pv a.pool hd)) hd).poolSize := h
  rw [deallocate_taken_of_lt _ _ h2]
  rfl

theorem popBackCore_numTaken {T : Type} (a : Alloc (DNode T)) (hd : Nat)
    (h : pv a.pool hd < a.poolSize) :
    (popBackCore a hd).numTaken = a.numTaken - 1 := by
  simp only [popBackCore]
  have h2 : pv a.pool hd < (setNext (setPrev a hd (pv a.pool (pv a.pool hd)))
      (pv a.pool (pv a.pool hd)) hd).poolSize := h
  rw [deallocate_numTaken_of_lt _ _ h2]
  rfl

theorem popBackCore_poolSize {T : Type} (a : Alloc (DNode T)) (hd : Nat) :
    (popBackCore a hd).poolSize = a.poolSize := by
  simp only [popBackCore]
  rw [deallocate_poolSize]
  rfl

theorem popFront_empty {T : Type} (d : Deque T) (h : d.size = 0) : d.popFront = d := by
  simp [Deque.popFront, h]

theorem popBack_empty {T : Type} (d : Deque T) (h : d.size = 0) : d.popBack = d := by
  simp [Deque.popBack, h]

theorem popFront_inv {T : Type} (d : Deque T) (x : Nat) (xs : List Nat)
    (hinv : DequeInv d (x :: xs)) :
    DequeInv d.popFront xs ∧ d.popFront.head = d.head ∧
      ringValues d.popFront.alloc.pool xs = ringValues d.alloc.pool xs ∧
      d.popFront.alloc.numTaken = d.alloc.numTaken - 1 ∧
      d.popFront.alloc.poolSize = d.alloc.poolSize ∧
      d.popFront.size = d.size - 1 ∧
      d.popFront.alloc.taken x = false := by
  have hsz : d.size = ((xs.length : Nat) : Int) + 1 := by
    rw [hinv.sizeEq]
    simp
  have hne : ¬ d.size = 0 := by omega
  have hpop : d.popFront =
      { alloc := popFrontCore d.alloc d.head, head := d.head, size := d.size - 1 } := by
    simp [Deque.popFront, hne]
  obtain ⟨hl1, hl2, hl3⟩ :
      nx d.alloc.pool d.head = x ∧ pv d.alloc.pool x = d.head ∧
        chain d.alloc.pool x xs d.head := hinv.linked
  have hheadring : d.head ∉ x :: xs := (List.nodup_cons.1 hinv.nodup).1
  have hxhd : x ≠ d.head := fun h => hheadring (h ▸ List.mem_cons_self _ _)
  have hxxs : x ∉ xs := (List.nodup_cons.1 ((List.nodup_cons.1 hinv.nodup).2)).1
  have hxlt : x < d.alloc.poolSize := hinv.bounded x (by simp)
  have hxlt2 : nx d.alloc.pool d.head < d.alloc.poolSize := by rw [hl1]; exact hxlt
  have htk : (popFrontCore d.alloc d.head).taken = setF d.alloc.taken x false := by
    rw [popFrontCore_taken d.alloc d.head hxlt2, hl1]
  rw [hpop]
  refine ⟨?_, rfl, ?_, ?_, popFrontCore_poolSize d.alloc d.head, rfl, ?_⟩
  · constructor
    · rw [List.nodup_cons]
      refine ⟨fun h => hheadring (List.mem_cons_of_mem _ h), ?_⟩
      exact (List.nodup_cons.1 ((List.nodup_cons.1 hinv.nodup).2)).2
    · intro y hy
      show y < (popFrontCore d.alloc d.head).poolSize
      rw [popFrontCore_poolSize]
      rcases List.mem_cons.1 hy with h | h
      · rw [h]
        exact hinv.bounded d.head (List.mem_cons_self _ _)
      · exact hinv.bounded y (by simp [h])
    · intro y hy
      show ((popFrontCore d.alloc d.head).taken y = true ↔ y ∈ d.head :: xs)
      rw [htk]
      have hyps : y < d.alloc.poolSize := by
        have : y < (popFrontCore d.alloc d.head).poolSize := hy
        rw [popFrontCore_poolSize] at this
        exact this
      by_cases hyx : y = x
      · rw [hyx, setF_eq]
        constructor
        · intro h
          cases h
        · intro h
          rcases List.mem_cons.1 h with h2 | h2
          · exact absurd h2 hxhd
          · exact absurd h2 hxxs
      · rw [setF_ne _ _ _ _ hyx, hinv.takenIff y hyps]
        simp only [List.mem_cons]
        constructor
        · rintro (h | h | h)
          · exact Or.inl h
          · exact absurd h hyx
          · exact Or.inr h
        · rintro (h | h)
          · exact Or.inl h
          · exact Or.inr (Or.inr h)
    · show d.size - 1 = ((xs.length : Nat) : Int)
      omega
    · show chain (popFrontCore d.alloc d.head).pool d.head xs d.head
      cases hxs : xs with
      | nil =>
        rw [hxs] at hl3
        obtain ⟨hx1, hx2⟩ := hl3
        refine ⟨?_, ?_⟩
        · rw [popFrontCore_nx_hd, hl1, hx1]
        · have := popFrontCore_pv_nxt d.alloc d.head
          rw [hl1, hx1] at this
          exact this
      | cons y ys =>
        rw [hxs] at hl3
        obtain ⟨hy1, hy2, hy3⟩ := hl3
        have hyxs : y ∈ xs := by rw [hxs]; exact List.mem_cons_self _ _
        have hyys : y ∉ ys := by
          have := (List.nodup_cons.1 ((List.nodup_cons.1 hinv.nodup).2)).2
          rw [hxs] at this
          exact (List.nodup_cons.1 this).1
        have hyhd : y ≠ d.head :=
          fun h => hheadring (h ▸ List.mem_cons_of_mem _ hyxs)
        refine ⟨?_, ?_, ?_⟩
        · rw [popFrontCore_nx_hd, hl1, hy1]
        · have := popFrontCore_pv_nxt d.alloc d.head
          rw [hl1, hy1] at this
          exact this
        · apply chain_congr d.alloc.pool (popFrontCore d.alloc d.head).pool ys y d.head
          · intro z hz
            have hzxs : z ∈ xs := by
              rw [hxs]
              exact hz
            have hzhd : z ≠ d.head :=
              fun h => hheadring (h ▸ List.mem_cons_of_mem _ hzxs)
            exact popFrontCore_nx_other d.alloc d.head z hzhd
          · intro z hz
            have hnxtEq : nx d.alloc.pool (nx d.alloc.pool d.head) = y := by
              rw [hl1, hy1]
            rcases List.mem_append.1 hz with h | h
            · have hzy : z ≠ y := fun hEq => hyys (hEq ▸ h)
              apply popFrontCore_pv_other
              rw [hnxtEq]
              exact hzy
            · have hzhd : z = d.head := by simpa using h
              apply popFrontCore_pv_other
              rw [hnxtEq, hzhd]
              exact fun hEq => hyhd hEq.symm
          · exact hy3
  · show List.map (vl (popFrontCore d.alloc d.head).pool) xs =
      List.map (vl d.alloc.pool) xs
    apply List.map_congr_left
    intro y _
    exact popFrontCore_vl d.alloc d.head y
  · show (popFrontCore d.alloc d.head).numTaken = d.alloc.numTaken - 1
    rw [popFrontCore_numTaken d.alloc d.head hxlt2]
  · show (popFrontCore d.alloc d.head).taken x = false
    rw [htk, setF_eq]

theorem popBack_inv {T : Type} (d : Deque T) (b : Nat) (L : List Nat)
    (hinv : DequeInv d (L ++ [b])) :
    DequeInv d.popBack L ∧ d.popBack.head = d.head ∧
      ringValues d.popBack.alloc.pool L = ringValues d.alloc.pool L ∧
      d.popBack.alloc.numTaken = d.alloc.numTaken - 1 ∧
      d.popBack.alloc.poolSize = d.alloc.poolSize ∧
      d.popBack.size = d.size - 1 ∧
      d.popBack.alloc.taken b = false := by
  have hsz : d.size = ((L.length : Nat) : Int) + 1 := by
    rw [hinv.sizeEq]
    simp
  have hne : ¬ d.size = 0 := by omega
  have hpop : d.popBack =
      { alloc := popBackCore d.alloc d.head, head := d.head, size := d.size - 1 } := by
    simp [Deque.popBack, hne]
  obtain ⟨hcl, hnb, hpb⟩ := (chain_concat _ _ _ _ _).1 hinv.linked
  have hheadring : d.head ∉ L ++ [b] := (List.nodup_cons.1 hinv.nodup).1
  have hringnd : (L ++ [b]).Nodup := (List.nodup_cons.1 hinv.nodup).2
  have hLnd : L.Nodup := (List.nodup_append.1 hringnd).1
  have hbL : b ∉ L := by
    intro h
    exact (List.nodup_append.1 hringnd).2.2 h (List.mem_cons_self _ _)
  have hbring : b ∈ L ++ [b] := List.mem_append.2 (Or.inr (List.mem_cons_self _ _))
  have hbhd : b ≠ d.head := fun h => hheadring (h ▸ hbring)
  have hheadL : d.head ∉ L := fun h => hheadring (List.mem_append.2 (Or.inl h))
  have hblt : b < d.alloc.poolSize := hinv.bounded b (List.mem_cons_of_mem _ hbring)
  have hxlt2 : pv d.alloc.pool d.head < d.alloc.poolSize := by
    rw [hpb]
    exact hblt
  have htk : (popBackCore d.alloc d.head).taken = setF d.alloc.taken b false := by
    rw [popBackCore_taken d.alloc d.head hxlt2, hpb]
  rw [hpop]
  refine ⟨?_, rfl, ?_, ?_, popBackCore_poolSize d.alloc d.head, rfl, ?_⟩
  · constructor
    · rw [List.nodup_cons]
      exact ⟨hheadL, hLnd⟩
    · intro y hy
      show y < (popBackCore d.alloc d.head).poolSize
      rw [popBackCore_poolSize]
      rcases List.mem_cons.1 hy with h | h
      · rw [h]
        exact hinv.bounded d.head (List.mem_cons_self _ _)
      · exact hinv.bounded y
          (List.mem_cons_of_mem _ (List.mem_append.2 (Or.inl h)))
    · intro y hy
      show ((popBackCore d.alloc d.head).taken y = true ↔ y ∈ d.head :: L)
      rw [htk]
      have hyps : y < d.alloc.poolSize := by
        have : y < (popBackCore d.alloc d.head).poolSize := hy
        rw [popBackCore_poolSize] at this
        exact this
      by_cases hyb : y = b
      · rw [hyb, setF_eq]
        constructor
        · intro h
          cases h
        · intro h
          rcases List.mem_cons.1 h with h2 | h2
          · exact absurd h2 hbhd
          · exact absurd h2 hbL
      · rw [setF_ne _ _ _ _ hyb, hinv.takenIff y hyps]
        simp only [List.mem_cons, List.mem_append]
        constructor
        · rintro (h | h | h)
          · exact Or.inl h
          · exact Or.inr h
          · have : y = b := by simpa using h
            exact absurd this hyb
        · rintro (h | h)
          · exact Or.inl h
          · exact Or.inr (Or.inl h)
    · show d.size - 1 = ((L.length : Nat) : Int)
      omega
    · show chain (popBackCore d.alloc d.head).pool d.head L d.head
      rcases List.eq_nil_or_concat' L with hr | ⟨M, c, hr⟩
      · rw [hr]
        rw [hr] at hcl
        obtain ⟨hc1, hc2⟩ := hcl
        have hprv : pv d.alloc.pool (pv d.alloc.pool d.head) = d.head := by
          rw [hpb, hc2]
        refine ⟨?_, ?_⟩
        · have := popBackCore_nx_prv d.alloc d.head
          rw [hprv] at this
          exact this
        · rw [popBackCore_pv_hd, hprv]
      · rw [hr]
        rw [hr] at hcl
        obtain ⟨hcm, hnc, hpc⟩ := (chain_concat _ _ _ _ _).1 hcl
        have hprv : pv d.alloc.pool (pv d.alloc.pool d.head) = c := by
          rw [hpb, hpc]
        have hcL : c ∈ L := by
          rw [hr]
          exact List.mem_append.2 (Or.inr (List.mem_cons_self _ _))
        have hchd : c ≠ d.head := fun h => hheadL (h ▸ hcL)
        have hcM : c ∉ M := by
          have := hLnd
          rw [hr, List.nodup_append] at this
          intro h
          exact this.2.2 h (List.mem_cons_self _ _)
        rw [chain_concat]
        refine ⟨?_, ?_, ?_⟩
        · apply chain_congr d.alloc.pool (popBackCore d.alloc d.head).pool M d.head c
          · intro z hz
            apply popBackCore_nx_other
            rw [hprv]
            rcases List.mem_cons.1 hz with h | h
            · rw [h]
              exact fun hEq => hchd hEq.symm
            · exact fun hEq => hcM (hEq ▸ h)
          · intro z hz
            apply popBackCore_pv_other
            have hzL : z ∈ L := by
              rw [hr]
              rcases List.mem_append.1 hz with h | h
              · exact List.mem_append.2 (Or.inl h)
              · exact List.mem_append.2 (Or.inr h)
            exact fun hEq => hheadL (hEq ▸ hzL)
          · exact hcm
        · have := popBackCore_nx_prv d.alloc d.head
          rw [hprv] at this
          exact this
        · rw [popBackCore_pv_hd, hprv]
  · show List.map (vl (popBackCore d.alloc d.head).pool) L =
      List.map (vl d.alloc.pool) L
    apply List.map_congr_left
    intro y _
    exact popBackCore_vl d.alloc d.head y
  · show (popBackCore d.alloc d.head).numTaken = d.alloc.numTaken - 1
    rw [popBackCore_numTaken d.alloc d.head hxlt2]
  · show (popBackCore d.alloc d.head).taken b = false
    rw [htk, setF_eq]

theorem dequeNew_inv {T : Type} (a : Alloc (DNode T)) (d : Deque T)
    (hempty : ∀ i, i < a.poolSize → a.taken i = false)
    (h : dequeNew a = some d) :
    DequeInv d [] ∧ d.head < a.poolSize ∧ d.alloc.numTaken = a.numTaken + 1 ∧
      d.alloc.poolSize = a.poolSize ∧ d.size = 0 := by
  unfold dequeNew at h
  cases hA : a.allocate with
  | mk o a1 =>
    rw [hA] at h
    cases o with
    | none => simp at h
    | some hd =>
      rw [Option.some.injEq] at h
      subst h
      have hfst : (a.allocate).1 = some hd := by rw [hA]
      have hff : a.firstFree = some hd := by rw [← allocate_fst_eq_firstFree, hfst]
      obtain ⟨-, hlt0, -, -⟩ := scanFrom_some_spec a.taken a.poolSize 0 hd hff
      have hdlt : hd < a.poolSize := by omega
      have ha1taken : a1.taken = setF a.taken hd true := by
        have := allocate_snd_taken_of_some a hd hfst
        rw [hA] at this
        exact this
      have ha1num : a1.numTaken = a.numTaken + 1 := by
        have := allocate_snd_numTaken_of_some a hd hfst
        rw [hA] at this
        exact this
      have ha1ps : a1.poolSize = a.poolSize := by
        have := allocate_snd_poolSize a
        rw [hA] at this
        exact this
      refine ⟨?_, hdlt, ?_, ?_, rfl⟩
      · constructor
        · exact List.nodup_cons.2 ⟨by simp, List.nodup_nil⟩
        · intro x hx
          show x < (setPrev (setNext a1 hd hd) hd hd).poolSize
          have : x = hd := by simpa using hx
          rw [this]
          show hd < a1.poolSize
          rw [ha1ps]
          exact hdlt
        · intro x hx
          show ((setPrev (setNext a1 hd hd) hd hd).taken x = true ↔ x ∈ [hd])
          have hxps : x < a.poolSize := by
            have : x < (setPrev (setNext a1 hd hd) hd hd).poolSize := hx
            show x < a.poolSize
            rw [← ha1ps]
            exact this
          show (a1.taken x = true ↔ x ∈ [hd])
          rw [ha1taken]
          by_cases hxhd : x = hd
          · rw [hxhd, setF_eq]
            simp
          · rw [setF_ne _ _ _ _ hxhd, hempty x hxps]
            simp [hxhd]
        · show (0 : Int) = ((0 : Nat) : Int)
          simp
        · show chain (setPrev (setNext a1 hd hd) hd hd).pool hd [] hd
          refine ⟨?_, ?_⟩
          · rw [nx_setPrev, nx_setNext_eq]
          · rw [pv_setPrev_eq]
      · show (setPrev (setNext a1 hd hd) hd hd).numTaken = a.numTaken + 1
        show a1.numTaken = a.numTaken + 1
        exact ha1num
      · show (setPrev (setNext a1 hd hd) hd hd).poolSize = a.poolSize
        show a1.poolSize = a.poolSize
        exact ha1ps

theorem dequeNew_some {T : Type} (a : Alloc (DNode T)) (hfree : a.taken 0 = false)
    (hn : 0 < a.poolSize) : ∃ d, dequeNew a = some d := by
  have h0 : (a.allocate).1 = some 0 := allocate_fst_zero_of_all_free a hfree hn
  unfold dequeNew
  cases hA : a.allocate with
  | mk o a1 =>
    rw [hA] at h0
    simp at h0
    subst h0
    exact ⟨_, rfl⟩

theorem exists_free_of_cap {T : Type} (d : Deque T) (ring : List Nat)
    (hinv : DequeInv d ring) (hcap : ring.length + 1 < d.alloc.poolSize) :
    ∃ i, i < d.alloc.poolSize ∧ d.alloc.taken i = false := by
  by_contra hnone
  push_neg at hnone
  have hsub : List.range d.alloc.poolSize ⊆ d.head :: ring := by
    intro z hz
    have hzlt := List.mem_range.1 hz
    have htz : d.alloc.taken z = true := by
      cases hc : d.alloc.taken z
      · exact absurd hc (hnone z hzlt)
      · rfl
    exact (hinv.takenIff z hzlt).1 htz
  have hlen := (List.subperm_of_subset (List.nodup_range _) hsub).length_le
  rw [List.length_range] at hlen
  simp only [List.length_cons] at hlen
  omega

theorem pushFront_some {T : Type} (v : T) (d : Deque T) (ring : List Nat)
    (hinv : DequeInv d ring) (hcap : ring.length + 1 < d.alloc.poolSize) :
    ∃ d', Deque.pushFront v d = some d' := by
  obtain ⟨i, hilt, hifree⟩ := exists_free_of_cap d ring hinv hcap
  cases hff : d.alloc.firstFree with
  | none =>
    rw [firstFree_none_iff] at hff
    rw [hff i hilt] at hifree
    cases hifree
  | some k =>
    unfold Deque.pushFront
    cases hA : d.alloc.allocate with
    | mk o a1 =>
      have hfst : (d.alloc.allocate).1 = some k := by
        rw [allocate_fst_eq_firstFree, hff]
      rw [hA] at hfst
      simp at hfst
      subst hfst
      exact ⟨_, rfl⟩

theorem pushBack_some {T : Type} (v : T) (d : Deque T) (ring : List Nat)
    (hinv : DequeInv d ring) (hcap : ring.length + 1 < d.alloc.poolSize) :
    ∃ d', Deque.pushBack v d = some d' := by
  obtain ⟨i, hilt, hifree⟩ := exists_free_of_cap d ring hinv hcap
  cases hff : d.alloc.firstFree with
  | none =>
    rw [firstFree_none_iff] at hff
    rw [hff i hilt] at hifree
    cases hifree
  | some k =>
    unfold Deque.pushBack
    cases hA : d.alloc.allocate with
    | mk o a1 =>
      have hfst : (d.alloc.allocate).1 = some k := by
        rw [allocate_fst_eq_firstFree, hff]
      rw [hA] at hfst
      simp at hfst
      subst hfst
      exact ⟨_, rfl⟩

/-- Concrete node-payload function used by witness instances. -/
def dnodeF : Nat → DNode Nat := fun _ => { value := 0, next := 0, prev := 0 }

theorem get_of_inv {T : Type} (d : Deque T) (ring : List Nat)
    (hinv : DequeInv d ring) (k : Nat) (hk : k < ring.length) :
    d.get (k : Int) = vl d.alloc.pool (ring.get ⟨k, hk⟩) := by
  unfold Deque.get
  rw [Int.toNat_ofNat]
  rw [chain_walk d.alloc.pool ring d.head d.head hinv.linked k hk]

theorem back_of_inv {T : Type} (d : Deque T) (ring : List Nat)
    (hinv : DequeInv d ring) (h : ring ≠ []) :
    d.back = d.get (d.size - 1) := by
  obtain ⟨L, b, hr⟩ : ∃ L b, ring = L ++ [b] := by
    rcases List.eq_nil_or_concat' ring with h2 | ⟨L, b, h2⟩
    · exact absurd h2 h
    · exact ⟨L, b, h2⟩
  have hl := hinv.linked
  rw [hr] at hl
  obtain ⟨hcl, hnb, hpb⟩ := (chain_concat _ _ _ _ _).1 hl
  have hsz : d.size = ((L.length : Nat) : Int) + 1 := by
    rw [hinv.sizeEq, hr]
    simp
  have htn : (d.size - 1).toNat = L.length := by omega
  unfold Deque.back Deque.get
  rw [htn, hpb, chain_walk_concat d.alloc.pool L d.head b d.head (hr ▸ hinv.linked)]

/-- C10: for every non-empty deque (one representing a non-empty value
sequence), `front()` returns the same value as `operator[](0)` and `back()`
returns the same value as `operator[](size()-1)`. -/
theorem front_back_vs_index {T : Type} (d : Deque T) (vs : List T)
    (hrep : DequeRepr d vs) (hne : vs ≠ []) :
    d.front = d.get 0 ∧ d.back = d.get (d.size - 1) := by
  obtain ⟨ring, hinv, hvals⟩ := hrep
  have hrne : ring ≠ [] := by
    intro h
    rw [h] at hvals
    exact hne (hvals.symm ▸ rfl)
  exact ⟨rfl, back_of_inv d ring hinv hrne⟩

/-- C5: the constructor establishes the ring invariant (on an allocator with
no slot yet in use), every successful push and every pop preserve it, and
the invariant means exactly the circular-ring property: following `next`
from the dummy head returns to it after `size()+1` steps, `next`/`prev` are
mutually inverse on every ring node, and the ring contains exactly
`size()+1` nodes (dummy included), all distinct. -/
theorem deque_ring_invariant {T : Type} :
    (∀ (a : Alloc (DNode T)) (d : Deque T),
      (∀ i, i < a.poolSize → a.taken i = false) → dequeNew a = some d →
        ∃ ring, DequeInv d ring) ∧
    (∀ (v : T) (d d' : Deque T), (∃ ring, DequeInv d ring) →
      Deque.pushFront v d = some d' → ∃ ring, DequeInv d' ring) ∧
    (∀ (v : T) (d d' : Deque T), (∃ ring, DequeInv d ring) →
      Deque.pushBack v d = some d' → ∃ ring, DequeInv d' ring) ∧
    (∀ d : Deque T, (∃ ring, DequeInv d ring) → ∃ ring, DequeInv d.popFront ring) ∧
    (∀ d : Deque T, (∃ ring, DequeInv d ring) → ∃ ring, DequeInv d.popBack ring) ∧
    (∀ (d : Deque T) (ring : List Nat), DequeInv d ring →
      walkNextN d.alloc.pool d.head (d.size.toNat + 1) = d.head ∧
      (∀ x ∈ d.head :: ring,
        pv d.alloc.pool (nx d.alloc.pool x) = x ∧
        nx d.alloc.pool (pv d.alloc.pool x) = x) ∧
      (d.head :: ring).length = d.size.toNat + 1 ∧ (d.head :: ring).Nodup) := by
  refine ⟨?_, ?_, ?_, ?_, ?_, ?_⟩
  · intro a d hempty hnew
    exact ⟨[], (dequeNew_inv a d hempty hnew).1⟩
  · rintro v d d' ⟨ring, hinv⟩ hp
    obtain ⟨i, -, -, hinv2, -⟩ := pushFront_inv v d d' ring hinv hp
    exact ⟨i :: ring, hinv2⟩
  · rintro v d d' ⟨ring, hinv⟩ hp
    obtain ⟨i, -, -, hinv2, -⟩ := pushBack_inv v d d' ring hinv hp
    exact ⟨ring ++ [i], hinv2⟩
  · rintro d ⟨ring, hinv⟩
    cases hring : ring with
    | nil =>
      rw [hring] at hinv
      have hsz : d.size = 0 := by
        rw [hinv.sizeEq]
        simp
      rw [popFront_empty d hsz]
      exact ⟨[], hinv⟩
    | cons x xs =>
      rw [hring] at hinv
      exact ⟨xs, (popFront_inv d x xs hinv).1⟩
  · rintro d ⟨ring, hinv⟩
    rcases List.eq_nil_or_concat' ring with hr | ⟨L, b, hr⟩
    · rw [hr] at hinv
      have hsz : d.size = 0 := by
        rw [hinv.sizeEq]
        simp
      rw [popBack_empty d hsz]
      exact ⟨[], hinv⟩
    · rw [hr] at hinv
      exact ⟨L, (popBack_inv d b L hinv).1⟩
  · intro d ring hinv
    have htn : d.size.toNat = ring.length := by
      have := hinv.sizeEq
      omega
    refine ⟨?_, ?_, ?_, hinv.nodup⟩
    · rw [htn]
      exact chain_walk_cycle d.alloc.pool ring d.head hinv.linked
    · intro x hx
      refine ⟨chain_pv_nx d.alloc.pool ring d.head d.head hinv.linked x hx, ?_⟩
      apply chain_nx_pv d.alloc.pool ring d.head d.head hinv.linked x
      rcases List.mem_cons.1 hx with h | h
      · rw [h]
        exact List.mem_append.2 (Or.inr (List.mem_cons_self _ _))
      · exact List.mem_append.2 (Or.inl h)
    · rw [htn]
      simp

theorem deque_ring_invariant_witness :
    ∃ d : Deque Nat, dequeNew (freshAlloc 1 dnodeF) = some d ∧
      ∃ ring, DequeInv d ring := by
  refine ⟨_, rfl, ?_⟩
  exact (@deque_ring_invariant Nat).1 (freshAlloc 1 dnodeF) _ (fun _ _ => rfl) rfl

theorem front_back_vs_index_witness :
    ∃ d d1 : Deque Nat, dequeNew (freshAlloc 2 dnodeF) = some d ∧
      Deque.pushBack 5 d = some d1 ∧
      d1.front = d1.get 0 ∧ d1.back = d1.get (d1.size - 1) := by
  refine ⟨_, _, rfl, rfl, ?_⟩
  have h0 := dequeNew_inv (freshAlloc 2 dnodeF) _ (fun _ _ => rfl) rfl
  obtain ⟨i, -, -, hinv1, -, hvals, -, -, -⟩ := pushBack_inv 5 _ _ [] h0.1 rfl
  refine front_back_vs_index _ [5] ⟨[] ++ [i], hinv1, ?_⟩ (by simp)
  rw [hvals]
  simp [ringValues]

/-- C7: `pop_front()` and `pop_back()` on an empty deque are no-ops, leaving
the size 0 and the whole state (backing allocator included) unchanged; on a
non-empty deque they remove the corresponding end value, return the removed
node to the allocator (live count decremented, its slot freed) and decrement
the size by one. -/
theorem pop_empty_noop_nonempty_removes {T : Type} (d : Deque T) (vs : List T) :
    (d.size = 0 → d.popFront = d ∧ d.popBack = d) ∧
    (DequeRepr d vs → vs ≠ [] →
      DequeRepr d.popFront vs.tail ∧ d.popFront.size = d.size - 1 ∧
      d.popFront.alloc.numTaken = d.alloc.numTaken - 1 ∧
      DequeRepr d.popBack vs.dropLast ∧ d.popBack.size = d.size - 1 ∧
      d.popBack.alloc.numTaken = d.alloc.numTaken - 1) := by
  refine ⟨fun h => ⟨popFront_empty d h, popBack_empty d h⟩, ?_⟩
  rintro ⟨ring, hinv, hvals⟩ hne
  have hrne : ring ≠ [] := by
    intro h
    rw [h] at hvals
    exact hne (hvals.symm ▸ rfl)
  have hfront : DequeRepr d.popFront vs.tail ∧ d.popFront.size = d.size - 1 ∧
      d.popFront.alloc.numTaken = d.alloc.numTaken - 1 := by
    cases hring : ring with
    | nil => exact absurd hring hrne
    | cons x xs =>
      rw [hring] at hinv hvals
      obtain ⟨hinv2, -, hvals2, hnum, -, hsz, -⟩ := popFront_inv d x xs hinv
      have htail : vs.tail = ringValues d.alloc.pool xs := by
        rw [← hvals]
        rfl
      exact ⟨⟨xs, hinv2, by rw [hvals2, ← htail]⟩, hsz, hnum⟩
  have hback : DequeRepr d.popBack vs.dropLast ∧ d.popBack.size = d.size - 1 ∧
      d.popBack.alloc.numTaken = d.alloc.numTaken - 1 := by
    rcases List.eq_nil_or_concat' ring with hr | ⟨L, b, hr⟩
    · exact absurd hr hrne
    · rw [hr] at hinv hvals
      obtain ⟨hinv2, -, hvals2, hnum, -, hsz, -⟩ := popBack_inv d b L hinv
      have hdrop : vs.dropLast = ringValues d.alloc.pool L := by
        rw [← hvals]
        have hsplit : ringValues d.alloc.pool (L ++ [b]) =
            ringValues d.alloc.pool L ++ [vl d.alloc.pool b] := by
          simp [ringValues]
        rw [hsplit]
        exact List.dropLast_concat
      exact ⟨⟨L, hinv2, by rw [hvals2, ← hdrop]⟩, hsz, hnum⟩
  exact ⟨hfront.1, hfront.2.1, hfront.2.2, hback.1, hback.2.1, hback.2.2⟩

theorem pop_empty_noop_nonempty_removes_witness :
    ∃ d d1 : Deque Nat, dequeNew (freshAlloc 2 dnodeF) = some d ∧
      Deque.pushBack 3 d = some d1 ∧
      (d.popFront = d ∧ d.popBack = d) ∧
      d1.popFront.size = d1.size - 1 ∧
      d1.popFront.alloc.numTaken = d1.alloc.numTaken - 1 := by
  refine ⟨_, _, rfl, rfl, ?_, ?_, ?_⟩
  · exact (pop_empty_noop_nonempty_removes _ ([] : List Nat)).1 (by decide)
  · have h0 := dequeNew_inv (freshAlloc 2 dnodeF) _ (fun _ _ => rfl) rfl
    obtain ⟨i, -, -, hinv1, -, hvals, -, -, -⟩ := pushBack_inv 3 _ _ [] h0.1 rfl
    have hrep : DequeRepr _ [3] := ⟨[] ++ [i], hinv1, by rw [hvals]; simp [ringValues]⟩
    exact ((pop_empty_noop_nonempty_removes _ [3]).2 hrep (by simp)).2.1
  · have h0 := dequeNew_inv (freshAlloc 2 dnodeF) _ (fun _ _ => rfl) rfl
    obtain ⟨i, -, -, hinv1, -, hvals, -, -, -⟩ := pushBack_inv 3 _ _ [] h0.1 rfl
    have hrep : DequeRepr _ [3] := ⟨[] ++ [i], hinv1, by rw [hvals]; simp [ringValues]⟩
    exact ((pop_empty_noop_nonempty_removes _ [3]).2 hrep (by simp)).2.2.1

/-- C1 counterexample: a deque of declared capacity 0 whose backing
allocator (1 slot, consumed by the dummy head) has no free slot.  Both
pushes evaluate to `none`, the embedding's outcome for the unchecked store
`toInsert->value = value` executed through the NULL pointer returned by the
exhausted allocator: the push does not fail explicitly before writing
through the invalid handle, contradicting the claim. -/
theorem push_full_null_write_counterexample :
    ∃ d : Deque Nat, dequeNew (createAllocator 0 dnodeF) = some d ∧
      Deque.pushBack 7 d = none ∧ Deque.pushFront 7 d = none := by
  exact ⟨_, rfl, rfl, rfl⟩

/-- C1 amended: when the backing allocator has no free slot, `push_front`
and `push_back` do not fail explicitly — `allocate()` returns NULL and the
code immediately stores the value through that null node handle (undefined
behaviour, the `none` outcome of the embedding). -/
theorem push_full_writes_through_null {T : Type} (v : T) (d : Deque T)
    (hfull : ∀ i, i < d.alloc.poolSize → d.alloc.taken i = true) :
    Deque.pushFront v d = none ∧ Deque.pushBack v d = none := by
  have hn : d.alloc.firstFree = none := (firstFree_none_iff _).2 hfull
  have hall : d.alloc.allocate = (none, d.alloc) := by
    unfold Alloc.allocate
    rw [hn]
  constructor
  · unfold Deque.pushFront
    rw [hall]
  · unfold Deque.pushBack
    rw [hall]

theorem push_full_writes_through_null_witness :
    ∃ d : Deque Nat, dequeNew (createAllocator 0 dnodeF) = some d ∧
      Deque.pushFront 9 d = none ∧ Deque.pushBack 9 d = none := by
  refine ⟨_, rfl, ?_, ?_⟩
  · exact (push_full_writes_through_null 9 _ (by decide)).1
  · exact (push_full_writes_through_null 9 _ (by decide)).2

/-- Pushes the values of `ws` one by one with `push_back`; `none` as soon as
one push hits the exhausted-allocator null write. -/
def pushBackAll {T : Type} (d : Deque T) : List T → Option (Deque T)
  | [] => some d
  | v :: vs =>
    match Deque.pushBack v d with
    | none => none
    | some d2 => pushBackAll d2 vs

/-- Pops `k` values from the front. -/
def popFrontN {T : Type} (d : Deque T) : Nat → Deque T
  | 0 => d
  | k + 1 => popFrontN d.popFront k

theorem countTaken_eq_one_of_unique (t : Nat → Bool) (h : Nat) :
    ∀ n, h < n → (∀ j, j < n → (t j = true ↔ j = h)) → countTaken t n = 1 := by
  intro n
  induction n with
  | zero => intro hlt; omega
  | succ m ih =>
    intro hlt huniq
    unfold countTaken
    by_cases hhm : h = m
    · have htm : t m = true := (huniq m (by omega)).2 hhm.symm
      have hzero : countTaken t m = 0 := by
        apply countTaken_eq_zero
        intro j hj
        cases hc : t j
        · rfl
        · have : j = h := (huniq j (by omega)).1 hc
          omega
      rw [hzero, htm]
      simp
    · have htm : t m = false := by
        cases hc : t m
        · rfl
        · have : m = h := (huniq m (by omega)).1 hc
          omega
      rw [htm, ih (by omega) (fun j hj => huniq j (by omega))]
      simp

theorem pushBackAll_inv {T : Type} (ws : List T) :
    ∀ (d : Deque T) (ring : List Nat),
      DequeInv d ring → ring.length + ws.length + 1 ≤ d.alloc.poolSize →
      ∃ d' ring', pushBackAll d ws = some d' ∧ DequeInv d' ring' ∧
        ringValues d'.alloc.pool ring' =
          ringValues d.alloc.pool ring ++ ws ∧
        d'.alloc.poolSize = d.alloc.poolSize ∧ d'.head = d.head ∧
        d'.alloc.numTaken = d.alloc.numTaken + (ws.length : Int) ∧
        ring'.length = ring.length + ws.length := by
  induction ws with
  | nil =>
    intro d ring hinv hcap
    exact ⟨d, ring, rfl, hinv, by simp, rfl, rfl, by simp, by simp⟩
  | cons w ws ih =>
    intro d ring hinv hcap
    obtain ⟨d2, hp⟩ := pushBack_some w d ring hinv (by simp at hcap; omega)
    obtain ⟨i, -, -, hinv2, hhd2, hvals2, hnum2, hps2, -⟩ :=
      pushBack_inv w d d2 ring hinv hp
    have hcap2 : (ring ++ [i]).length + ws.length + 1 ≤ d2.alloc.poolSize := by
      rw [hps2]
      simp at hcap ⊢
      omega
    obtain ⟨d', ring', hall, hinv', hvals', hps', hhd', hnum', hlen'⟩ :=
      ih d2 (ring ++ [i]) hinv2 hcap2
    refine ⟨d', ring', ?_, hinv', ?_, ?_, ?_, ?_, ?_⟩
    · unfold pushBackAll
      rw [hp]
      exact hall
    · rw [hvals', hvals2]
      simp
    · rw [hps', hps2]
    · rw [hhd', hhd2]
    · rw [hnum', hnum2, List.length_cons]
      push_cast
      ring
    · rw [hlen']
      simp
      omega

theorem popFrontN_inv {T : Type} (k : Nat) :
    ∀ (d : Deque T) (ring : List Nat), DequeInv d ring → ring.length = k →
      DequeInv (popFrontN d k) [] ∧ (popFrontN d k).size = 0 ∧
      (popFrontN d k).alloc.numTaken = d.alloc.numTaken - (k : Int) ∧
      (popFrontN d k).alloc.poolSize = d.alloc.poolSize ∧
      (popFrontN d k).head = d.head := by
  induction k with
  | zero =>
    intro d ring hinv hlen
    have hr : ring = [] := List.eq_nil_of_length_eq_zero hlen
    rw [hr] at hinv
    have h0 : popFrontN d 0 = d := rfl
    rw [h0]
    refine ⟨hinv, ?_, by simp, rfl, rfl⟩
    rw [hinv.sizeEq]
    simp
  | succ m ih =>
    intro d ring hinv hlen
    cases ring with
    | nil => simp at hlen
    | cons x xs =>
      obtain ⟨hinv2, hhd, -, hnum, hps, hsz, -⟩ := popFront_inv d x xs hinv
      have hrec := ih d.popFront xs hinv2 (by simpa using hlen)
      have hstep : popFrontN d (m + 1) = popFrontN d.popFront m := rfl
      rw [hstep]
      refine ⟨hrec.1, hrec.2.1, ?_, ?_, ?_⟩
      · rw [hrec.2.2.1, hnum]
        push_cast
        ring
      · rw [hrec.2.2.2.1, hps]
      · rw [hrec.2.2.2.2, hhd]

/-- C6: for a deque of declared capacity `M` backed by an allocator of size
`M + 1`, pushing the `M` values of `vs` with `push_back` succeeds, reading
`operator[](k)` for `k < M` returns the values in insertion order, and
popping all `M` values restores `size()` to 0 and returns the backing
allocator to full availability (live count back to 1 and exactly one slot —
the dummy head — still in use). -/
theorem deque_roundtrip {T : Type} (M : Nat) (vs : List T) (f : Nat → DNode T)
    (hlen : vs.length = M) (d0 : Deque T)
    (hnew : dequeNew (createAllocator M f) = some d0) :
    ∃ d1, pushBackAll d0 vs = some d1 ∧
      (∀ (k : Nat) (hk : k < vs.length), d1.get (k : Int) = vs.get ⟨k, hk⟩) ∧
      d1.size = (M : Int) ∧
      (popFrontN d1 M).size = 0 ∧
      (popFrontN d1 M).alloc.numTaken = 1 ∧
      countTaken (popFrontN d1 M).alloc.taken (M + 1) = 1 := by
  obtain ⟨hinv0, hhdlt, hnum0, hps0, hsz0⟩ :=
    dequeNew_inv (createAllocator M f) d0 (fun i hi => rfl) hnew
  have hps0M : d0.alloc.poolSize = M + 1 := by
    rw [hps0]
    rfl
  have hnum01 : d0.alloc.numTaken = 1 := by
    rw [hnum0]
    rfl
  obtain ⟨d1, ring1, hall, hinv1, hvals1, hps1, hhd1, hnum1, hlen1⟩ :=
    pushBackAll_inv vs d0 [] hinv0 (by rw [hps0M]; simp [hlen])
  have hv : ringValues d1.alloc.pool ring1 = vs := by
    rw [hvals1]
    simp [ringValues]
  have hlen1M : ring1.length = M := by
    rw [hlen1, hlen]
    simp
  have hps1M : d1.alloc.poolSize = M + 1 := by rw [hps1, hps0M]
  have hnum1M : d1.alloc.numTaken = 1 + (M : Int) := by
    rw [hnum1, hnum01, hlen]
  obtain ⟨hinvP, hszP, hnumP, hpsP, hhdP⟩ :=
    popFrontN_inv M d1 ring1 hinv1 hlen1M
  refine ⟨d1, hall, ?_, ?_, hszP, ?_, ?_⟩
  · intro k hk
    have hk1 : k < ring1.length := by omega
    rw [get_of_inv d1 ring1 hinv1 k hk1]
    rw [List.get_of_eq hv.symm ⟨k, hk⟩]
    simp [ringValues, List.get_eq_getElem, List.getElem_map]
  · rw [hinv1.sizeEq, hlen1M]
  · rw [hnumP, hnum1M]
    ring
  · have hhd : (popFrontN d1 M).head = d0.head := by rw [hhdP, hhd1]
    have hpsPM : (popFrontN d1 M).alloc.poolSize = M + 1 := by rw [hpsP, hps1M]
    apply countTaken_eq_one_of_unique _ (popFrontN d1 M).head
    · rw [hhd]
      have : d0.head < (createAllocator M f).poolSize := hhdlt
      exact this
    · intro j hj
      have hjps : j < (popFrontN d1 M).alloc.poolSize := by rw [hpsPM]; omega

      rw [hinvP.takenIff j hjps]
      simp

theorem deque_roundtrip_witness :
    ∃ (d0 d1 : Deque Nat), dequeNew (createAllocator 2 dnodeF) = some d0 ∧
      pushBackAll d0 [10, 20] = some d1 ∧
      d1.get 0 = 10 ∧ d1.get 1 = 20 ∧ d1.size = 2 ∧
      (popFrontN d1 2).size = 0 ∧ (popFrontN d1 2).alloc.numTaken = 1 ∧
      countTaken (popFrontN d1 2).alloc.taken 3 = 1 := by
  obtain ⟨d1, hall, hget, hsz, hp0, hp1, hp2⟩ :=
    deque_roundtrip 2 [10, 20] dnodeF rfl _ rfl
  refine ⟨_, d1, rfl, hall, ?_, ?_, ?_, hp0, hp1, hp2⟩
  · have h0 := hget 0 (by decide)
    simpa using h0
  · have h1 := hget 1 (by decide)
    simpa using h1
  · exact_mod_cast hsz

/-- Number of slots among the first `n` whose flag is clear (the pool's
`available()` count). -/
def countFree (t : Nat → Bool) : Nat → Nat
  | 0 => 0
  | n + 1 => countFree t n + (if t n then 0 else 1)

theorem countFree_congr (t t' : Nat → Bool) :
    ∀ n, (∀ j, j < n → t j = t' j) → countFree t n = countFree t' n := by
  intro n
  induction n with
  | zero => intro _; rfl
  | succ m ih =>
    intro h
    unfold countFree
    rw [ih (fun j hj => h j (by omega)), h m (by omega)]

theorem countFree_pos_exists (t : Nat → Bool) :
    ∀ n, 0 < countFree t n → ∃ i, i < n ∧ t i = false := by
  intro n
  induction n with
  | zero => intro h; simp [countFree] at h
  | succ m ih =>
    intro h
    cases hc : t m
    · exact ⟨m, by omega, hc⟩
    · unfold countFree at h
      rw [hc] at h
      simp at h
      obtain ⟨i, hi, hf⟩ := ih h
      exact ⟨i, by omega, hf⟩

theorem countFree_setF_true (t : Nat → Bool) (i : Nat) :
    ∀ n, i < n → t i = false →
      countFree t n = countFree (setF t i true) n + 1 := by
  intro n
  induction n with
  | zero => intro h; omega
  | succ m ih =>
    intro hin hfree
    unfold countFree
    by_cases him : i = m
    · have hcongr : countFree (setF t i true) i = countFree t i :=
        countFree_congr _ _ i (fun j hj => setF_ne t i j true (by omega))
      rw [him] at hcongr hfree ⊢
      rw [hcongr, setF_eq, hfree]
      simp
    · rw [ih (by omega) hfree, setF_ne t i m true (fun h => him h.symm)]
      by_cases h : t m <;> simp [h] <;> omega

theorem countFree_setF_false (t : Nat → Bool) (i : Nat) :
    ∀ n, i < n → t i = true →
      countFree (setF t i false) n = countFree t n + 1 := by
  intro n
  induction n with
  | zero => intro h; omega
  | succ m ih =>
    intro hin htaken
    unfold countFree
    by_cases him : i = m
    · have hcongr : countFree (setF t i false) i = countFree t i :=
        countFree_congr _ _ i (fun j hj => setF_ne t i j false (by omega))
      rw [him] at hcongr htaken ⊢
      rw [hcongr, setF_eq, htaken]
      simp
    · rw [ih (by omega) htaken, setF_ne t i m false (fun h => him h.symm)]
      by_cases h : t m <;> simp [h] <;> omega

/-- Modelled from the spec: the state of `StringPool<K, L>` from
src/kty/containers/string.hpp, which is missing from the provided sources
(only its tests in src/test/string_test.hpp use it).  Per spec sections 3
and 4.3: `numSlots` (K) string slots, each holding up to `maxStrLen` usable
characters plus an implicit terminator; per-slot in-use flags; a handle is
an integer in `[0, K)` when valid, the sentinel -1 otherwise (the tests
compare against -1). -/
structure StringPool where
  numSlots : Nat
  maxStrLen : Nat
  contents : Nat → List Char
  taken : Nat → Bool

/-- Modelled from the spec: `allocate_idx()` returns the first free handle
in `[0, K)`, marking it in use, or the sentinel -1 if the pool is full. -/
def StringPool.allocate_idx (p : StringPool) : Int × StringPool :=
  match scanFrom p.taken 0 p.numSlots with
  | some i => ((i : Int), { p with taken := setF p.taken i true })
  | none => (-1, p)

/-- Modelled from the spec: `deallocate_idx(h)` returns true and frees the
slot if `h` was in use; returns false with no state change if `h` is out of
range, the sentinel, or already free. -/
def StringPool.deallocate_idx (p : StringPool) (h : Int) : Bool × StringPool :=
  if 0 ≤ h ∧ h < (p.numSlots : Int) then
    if p.taken h.toNat then (true, { p with taken := setF p.taken h.toNat false })
    else (false, p)
  else (false, p)

/-- Modelled from the spec: `available()` is the count of currently free
slots. -/
def StringPool.available (p : StringPool) : Nat :=
  countFree p.taken p.numSlots

/-- Modelled from the spec: `strcpy(h, text)` overwrites slot `h`'s content
with `text`, silently truncated to the maximum usable length (the
terminator byte is implicit in the `List Char` model). -/
def StringPool.strcpy (p : StringPool) (h : Nat) (text : List Char) : StringPool :=
  if h < p.numSlots then
    { p with contents := setF p.contents h (text.take p.maxStrLen) }
  else p

/-- Modelled from the spec: `c_str(h)` is the read-only view of slot `h`'s
current content. -/
def StringPool.c_str (p : StringPool) (h : Nat) : List Char :=
  p.contents h

/-- Modelled from the spec: a `PoolString` is bound to one StringPool and
owns exactly one of its slots. -/
structure PoolString where
  pool : StringPool
  idx : Nat

/-- Modelled from the spec: assignment from text overwrites the owned
slot's content via the pool's truncating copy, never changing which slot is
owned. -/
def PoolString.assign (s : PoolString) (text : List Char) : PoolString :=
  { s with pool := s.pool.strcpy s.idx text }

/-- Content of the owned slot (`c_str` on the owned handle). -/
def PoolString.content (s : PoolString) : List Char :=
  s.pool.c_str s.idx

/-- C8: for a PoolString in a pool of maximum usable length 10, assigning
the 20-character text yields content exactly the first 10 characters —
assignment truncates silently to the pool's maximum length — and any
assigned content fits within the maximum length, so the terminator slot is
never overrun. -/
theorem poolstring_truncation (s : PoolString)
    (hidx : s.idx < s.pool.numSlots) (hmax : s.pool.maxStrLen = 10) :
    (s.assign ("12345678901234567890".toList)).content = "1234567890".toList ∧
    ∀ t : List Char, ((s.assign t).content).length ≤ s.pool.maxStrLen := by
  constructor
  · show (s.pool.strcpy s.idx _).contents s.idx = _
    unfold StringPool.strcpy
    rw [if_pos hidx]
    show setF s.pool.contents s.idx _ s.idx = _
    rw [setF_eq, hmax]
    decide
  · intro t
    show ((s.pool.strcpy s.idx t).contents s.idx).length ≤ s.pool.maxStrLen
    unfold StringPool.strcpy
    rw [if_pos hidx]
    show (setF s.pool.contents s.idx (t.take s.pool.maxStrLen) s.idx).length ≤
      s.pool.maxStrLen
    rw [setF_eq, List.length_take]
    exact min_le_left _ _

/-- Concrete two-slot pool of maximum usable length 10, slot 0 allocated. -/
def exPool : StringPool :=
  { numSlots := 2, maxStrLen := 10, contents := fun _ => [],
    taken := setF (fun _ => false) 0 true }

/-- Concrete PoolString owning slot 0 of `exPool`. -/
def exPoolString : PoolString := { pool := exPool, idx := 0 }

theorem poolstring_truncation_witness :
    (exPoolString.assign ("12345678901234567890".toList)).content =
      "1234567890".toList ∧
    ((exPoolString.assign ("abc".toList)).content).length ≤
      exPoolString.pool.maxStrLen :=
  ⟨(poolstring_truncation exPoolString (by decide) rfl).1,
   (poolstring_truncation exPoolString (by decide) rfl).2 ("abc".toList)⟩

theorem allocate_idx_spec (p : StringPool) (hpos : 0 < p.available) :
    ∃ i : Nat, i < p.numSlots ∧ p.taken i = false ∧
      p.allocate_idx = ((i : Int), { p with taken := setF p.taken i true }) ∧
      ({ p with taken := setF p.taken i true } : StringPool).available + 1 =
        p.available := by
  obtain ⟨j, hj, hjf⟩ := countFree_pos_exists p.taken p.numSlots hpos
  cases hscan : scanFrom p.taken 0 p.numSlots with
  | none =>
    have := scanFrom_none_spec p.taken p.numSlots 0 hscan j (by omega) (by omega)
    rw [hjf] at this
    cases this
  | some i =>
    obtain ⟨-, hlt, hfree, -⟩ := scanFrom_some_spec p.taken p.numSlots 0 i hscan
    refine ⟨i, by omega, hfree, ?_, ?_⟩
    · unfold StringPool.allocate_idx
      rw [hscan]
    · show countFree (setF p.taken i true) p.numSlots + 1 = countFree p.taken p.numSlots
      exact (countFree_setF_true p.taken i p.numSlots (by omega) hfree).symm

theorem deallocate_idx_spec (p : StringPool) (h : Int)
    (h0 : 0 ≤ h) (hlt : h < (p.numSlots : Int)) (htk : p.taken h.toNat = true) :
    p.deallocate_idx h = (true, { p with taken := setF p.taken h.toNat false }) ∧
    ({ p with taken := setF p.taken h.toNat false } : StringPool).available =
      p.available + 1 := by
  constructor
  · unfold StringPool.deallocate_idx
    rw [if_pos ⟨h0, hlt⟩, if_pos htk]
  · show countFree (setF p.taken h.toNat false) p.numSlots =
      countFree p.taken p.numSlots + 1
    apply countFree_setF_false p.taken h.toNat p.numSlots _ htk
    omega

/-- Modelled from the spec: `StringDeque` (src/kty/containers/string.hpp,
missing from the sources; its test is src/test/string_test.hpp): a Deque of
int handles together with the externally referenced StringPool the handles
live in. -/
structure StringDeque where
  deq : Deque Int
  pool : StringPool

/-- Modelled from the spec: `push_back(h)` appends an already-allocated
handle; the deque becomes its exclusive owner. -/
def StringDeque.push_back (sd : StringDeque) (h : Int) : Option StringDeque :=
  match Deque.pushBack h sd.deq with
  | none => none
  | some d2 => some { sd with deq := d2 }

/-- Modelled from the spec: `pop_back()` removes the handle from the
sequence and deallocates it from the associated pool as a direct,
unconditional side effect (a no-op when empty, as for the plain deque). -/
def StringDeque.pop_back (sd : StringDeque) : StringDeque :=
  if sd.deq.size = 0 then sd
  else { deq := sd.deq.popBack, pool := (sd.pool.deallocate_idx sd.deq.back).2 }

/-- Modelled from the spec: `pop_front()`, the front-end counterpart of
`pop_back()`. -/
def StringDeque.pop_front (sd : StringDeque) : StringDeque :=
  if sd.deq.size = 0 then sd
  else { deq := sd.deq.popFront, pool := (sd.pool.deallocate_idx sd.deq.front).2 }

/-- Pushes `k` freshly allocated handles (`allocate_idx` then `push_back`),
as in the round-trip test. -/
def pushFreshN (sd : StringDeque) : Nat → Option StringDeque
  | 0 => some sd
  | k + 1 =>
    match sd.pool.allocate_idx with
    | (h, p2) =>
      match StringDeque.push_back { sd with pool := p2 } h with
      | none => none
      | some sd2 => pushFreshN sd2 k

/-- Pops `k` handles from the back. -/
def popBackN (sd : StringDeque) : Nat → StringDeque
  | 0 => sd
  | k + 1 => popBackN sd.pop_back k

theorem popBackN_restores :
    ∀ (hs : List Int) (sd : StringDeque) (ring : List Nat),
      DequeInv sd.deq ring → ringValues sd.deq.alloc.pool ring = hs →
      (∀ h ∈ hs, 0 ≤ h ∧ h < (sd.pool.numSlots : Int) ∧
        sd.pool.taken h.toNat = true) →
      hs.Nodup →
      (popBackN sd hs.length).pool.available = sd.pool.available + hs.length ∧
      (popBackN sd hs.length).deq.size = 0 ∧
      (popBackN sd hs.length).pool.numSlots = sd.pool.numSlots := by
  intro hs
  induction hs using List.reverseRecOn with
  | nil =>
    intro sd ring hinv hvals hcond hnd
    have hr : ring = [] := by
      cases ring with
      | nil => rfl
      | cons a l =>
        exfalso
        simp [ringValues] at hvals
    have h0 : popBackN sd ([] : List Int).length = sd := rfl
    rw [h0]
    refine ⟨by simp, ?_, rfl⟩
    rw [hr] at hinv
    rw [hinv.sizeEq]
    simp
  | append_singleton A w ih =>
    intro sd ring hinv hvals hcond hnd
    have hlen : ring.length = A.length + 1 := by
      have hL : (ringValues sd.deq.alloc.pool ring).length = (A ++ [w]).length := by
        rw [hvals]
      simpa [ringValues] using hL
    obtain ⟨L, b, hr⟩ : ∃ L b, ring = L ++ [b] := by
      rcases List.eq_nil_or_concat' ring with h2 | h2
      · rw [h2] at hlen
        simp at hlen
      · exact h2
    subst hr
    have hsplit : ringValues sd.deq.alloc.pool (L ++ [b]) =
        ringValues sd.deq.alloc.pool L ++ [vl sd.deq.alloc.pool b] := by
      simp [ringValues]
    rw [hsplit] at hvals
    obtain ⟨hA, hw⟩ := List.append_inj' hvals rfl
    have hwv : vl sd.deq.alloc.pool b = w := by simpa using hw
    obtain ⟨hcl, hnb, hpb⟩ := (chain_concat _ _ _ _ _).1 hinv.linked
    have hback : sd.deq.back = w := by
      show vl sd.deq.alloc.pool (pv sd.deq.alloc.pool sd.deq.head) = w
      rw [hpb, hwv]
    have hsz : sd.deq.size = ((L.length : Nat) : Int) + 1 := by
      rw [hinv.sizeEq]
      simp
    have hne : ¬ sd.deq.size = 0 := by omega
    have hwmem : w ∈ A ++ [w] := List.mem_append.2 (Or.inr (List.mem_cons_self _ _))
    obtain ⟨hw0, hwlt, hwtk⟩ := hcond w hwmem
    obtain ⟨hde, hda⟩ := deallocate_idx_spec sd.pool w hw0 hwlt hwtk
    have hpop : sd.pop_back =
        { deq := sd.deq.popBack,
          pool := { sd.pool with taken := setF sd.pool.taken w.toNat false } } := by
      unfold StringDeque.pop_back
      rw [if_neg hne, hback, hde]
    obtain ⟨hinv2, -, hvals2, -, -, -, -⟩ := popBack_inv sd.deq b L hinv
    have hw_notA : w ∉ A := by
      rw [List.nodup_append] at hnd
      intro hmem
      exact hnd.2.2 hmem (List.mem_cons_self _ _)
    have hcond2 : ∀ h ∈ A, 0 ≤ h ∧
        h < ((({ sd.pool with taken := setF sd.pool.taken w.toNat false } :
          StringPool)).numSlots : Int) ∧
        ({ sd.pool with taken := setF sd.pool.taken w.toNat false } :
          StringPool).taken h.toNat = true := by
      intro h hmem
      obtain ⟨h0, hlt2, htk⟩ := hcond h (List.mem_append.2 (Or.inl hmem))
      refine ⟨h0, hlt2, ?_⟩
      show setF sd.pool.taken w.toNat false h.toNat = true
      rw [setF_ne]
      · exact htk
      · intro hEq
        apply hw_notA
        have hhw : h = w := by omega
        exact hhw ▸ hmem
    have hndA : A.Nodup := (List.nodup_append.1 hnd).1
    have hstep : popBackN sd (A ++ [w]).length = popBackN sd.pop_back A.length := by
      have h1 : (A ++ [w]).length = A.length + 1 := by simp
      rw [h1]
      rfl
    have hvalsA : ringValues sd.pop_back.deq.alloc.pool L = A := by
      rw [hpop]
      show ringValues sd.deq.popBack.alloc.pool L = A
      rw [hvals2, hA]
    have hinvA : DequeInv sd.pop_back.deq L := by
      rw [hpop]
      exact hinv2
    have hcondA : ∀ h ∈ A, 0 ≤ h ∧ h < (sd.pop_back.pool.numSlots : Int) ∧
        sd.pop_back.pool.taken h.toNat = true := by
      rw [hpop]
      exact hcond2
    have hres := ih sd.pop_back L hinvA hvalsA hcondA hndA
    rw [hstep]
    refine ⟨?_, hres.2.1, ?_⟩
    · rw [hres.1]
      have hpa : sd.pop_back.pool.available = sd.pool.available + 1 := by
        rw [hpop]
        exact hda
      rw [hpa]
      simp
      omega
    · rw [hres.2.2, hpop]

theorem pushFreshN_spec :
    ∀ (k : Nat) (sd : StringDeque) (ring : List Nat) (hs : List Int),
      DequeInv sd.deq ring → ringValues sd.deq.alloc.pool ring = hs →
      (∀ h ∈ hs, 0 ≤ h ∧ h < (sd.pool.numSlots : Int) ∧
        sd.pool.taken h.toNat = true) →
      hs.Nodup →
      k ≤ sd.pool.available →
      ring.length + k + 1 ≤ sd.deq.alloc.poolSize →
      ∃ sd' ring' hs', pushFreshN sd k = some sd' ∧
        DequeInv sd'.deq ring' ∧ ringValues sd'.deq.alloc.pool ring' = hs' ∧
        (∀ h ∈ hs', 0 ≤ h ∧ h < (sd'.pool.numSlots : Int) ∧
          sd'.pool.taken h.toNat = true) ∧
        hs'.Nodup ∧ hs'.length = hs.length + k ∧
        sd'.pool.available + k = sd.pool.available ∧
        sd'.pool.numSlots = sd.pool.numSlots ∧
        sd'.deq.alloc.poolSize = sd.deq.alloc.poolSize := by
  intro k
  induction k with
  | zero =>
    intro sd ring hs hinv hvals hcond hnd hav hcap
    exact ⟨sd, ring, hs, rfl, hinv, hvals, hcond, hnd, by simp, rfl, rfl, rfl⟩
  | succ m ih =>
    intro sd ring hs hinv hvals hcond hnd hav hcap
    have hpos : 0 < sd.pool.available := by omega
    obtain ⟨i, hilt, hifree, haeq, hava⟩ := allocate_idx_spec sd.pool hpos
    obtain ⟨d2, hp⟩ := pushBack_some (i : Int) sd.deq ring hinv (by omega)
    obtain ⟨j, -, -, hinv2, -, hvals2, -, hps2, -⟩ :=
      pushBack_inv (i : Int) sd.deq d2 ring hinv hp
    have hpb2 : StringDeque.push_back
        { deq := sd.deq, pool := { sd.pool with taken := setF sd.pool.taken i true } }
        (i : Int) =
        some { deq := d2,
               pool := { sd.pool with taken := setF sd.pool.taken i true } } := by
      unfold StringDeque.push_back
      rw [hp]
    have hstep : pushFreshN sd (m + 1) =
        pushFreshN
          { deq := d2, pool := { sd.pool with taken := setF sd.pool.taken i true } }
          m := by
      simp only [pushFreshN, haeq, hpb2]
    have hins : (i : Int) ∉ hs := by
      intro hmem
      obtain ⟨-, -, htk⟩ := hcond (i : Int) hmem
      rw [Int.toNat_ofNat] at htk
      rw [hifree] at htk
      cases htk
    have hcondP : ∀ h ∈ hs ++ [(i : Int)], 0 ≤ h ∧
        h < ((({ sd.pool with taken := setF sd.pool.taken i true } :
          StringPool)).numSlots : Int) ∧
        ({ sd.pool with taken := setF sd.pool.taken i true } :
          StringPool).taken h.toNat = true := by
      intro h hmem
      rcases List.mem_append.1 hmem with hm | hm
      · obtain ⟨h0, hlt2, htk⟩ := hcond h hm
        refine ⟨h0, hlt2, ?_⟩
        show setF sd.pool.taken i true h.toNat = true
        by_cases hEq : h.toNat = i
        · rw [hEq, setF_eq]
        · rw [setF_ne _ _ _ _ hEq]
          exact htk
      · have hhi : h = (i : Int) := by simpa using hm
        subst hhi
        refine ⟨by omega, by exact_mod_cast hilt, ?_⟩
        show setF sd.pool.taken i true (Int.toNat (i : Int)) = true
        rw [Int.toNat_ofNat, setF_eq]
    have hndP : (hs ++ [(i : Int)]).Nodup := by
      rw [List.nodup_append]
      exact ⟨hnd, List.nodup_cons.2 ⟨by simp, List.nodup_nil⟩,
        fun x hx hxi => hins ((by simpa using hxi : x = (i : Int)) ▸ hx)⟩
    have hvalsP : ringValues d2.alloc.pool (ring ++ [j]) = hs ++ [(i : Int)] := by
      rw [hvals2, hvals]
    have havP : m ≤ ({ sd.pool with taken := setF sd.pool.taken i true } :
        StringPool).available := by
      have : ({ sd.pool with taken := setF sd.pool.taken i true } :
          StringPool).available + 1 = sd.pool.available := hava
      omega
    have hcapP : (ring ++ [j]).length + m + 1 ≤ d2.alloc.poolSize := by
      rw [hps2]
      simp only [List.length_append, List.length_cons, List.length_nil]
      omega
    obtain ⟨sd', ring', hs', hrun, hinv', hvals', hcond', hnd', hlen', hav', hns', hps'⟩ :=
      ih { deq := d2, pool := { sd.pool with taken := setF sd.pool.taken i true } }
        (ring ++ [j]) (hs ++ [(i : Int)]) hinv2 hvalsP hcondP hndP havP hcapP
    refine ⟨sd', ring', hs', ?_, hinv', hvals', hcond', hnd', ?_, ?_, hns', ?_⟩
    · rw [hstep]
      exact hrun
    · rw [hlen']
      simp only [List.length_append, List.length_cons, List.length_nil]
      omega
    · have h1 : ({ sd.pool with taken := setF sd.pool.taken i true } :
          StringPool).available + 1 = sd.pool.available := hava
      have hav2 : sd'.pool.available + m =
          ({ sd.pool with taken := setF sd.pool.taken i true } :
            StringPool).available := hav'
      omega
    · rw [hps', hps2]

/-- Concrete Int-node payload for witness instances. -/
def dnodeIF : Nat → DNode Int := fun _ => { value := 0, next := 0, prev := 0 }

/-- Concrete one-slot string pool with its slot free. -/
def exPoolFree : StringPool :=
  { numSlots := 1, maxStrLen := 10, contents := fun _ => [],
    taken := fun _ => false }

/-- C9 (pool and string containers modelled from the spec): `pop_back` and
`pop_front` deallocate the removed handle from the associated pool as an
unconditional side effect, and pushing `N` freshly allocated handles then
popping all `N` restores the pool's `available()` to its pre-push value. -/
theorem stringdeque_pop_deallocates (N : Nat) (p : StringPool)
    (f : Nat → DNode Int) (d0 : Deque Int)
    (hnew : dequeNew (createAllocator N f) = some d0)
    (havail : N ≤ p.available) :
    (∀ sd : StringDeque, sd.deq.size ≠ 0 →
      sd.pop_back.pool = (sd.pool.deallocate_idx sd.deq.back).2 ∧
      sd.pop_front.pool = (sd.pool.deallocate_idx sd.deq.front).2) ∧
    ∃ sd', pushFreshN { deq := d0, pool := p } N = some sd' ∧
      sd'.pool.available + N = p.available ∧
      (popBackN sd' N).pool.available = p.available ∧
      (popBackN sd' N).deq.size = 0 := by
  constructor
  · intro sd hne
    constructor
    · unfold StringDeque.pop_back
      rw [if_neg hne]
    · unfold StringDeque.pop_front
      rw [if_neg hne]
  · obtain ⟨hinv0, -, -, hps0, -⟩ :=
      dequeNew_inv (createAllocator N f) d0 (fun _ _ => rfl) hnew
    have hps0N : d0.alloc.poolSize = N + 1 := by
      rw [hps0]
      rfl
    obtain ⟨sd', ring', hs', hrun, hinv', hvals', hcond', hnd', hlen', hav', hns', hpsd'⟩ :=
      pushFreshN_spec N { deq := d0, pool := p } [] [] hinv0 rfl
        (by intro h hm; cases hm) List.nodup_nil havail
        (by show ([] : List Nat).length + N + 1 ≤ d0.alloc.poolSize; simp [hps0N])
    have hres := popBackN_restores hs' sd' ring' hinv' hvals' hcond' hnd'
    have hlN : hs'.length = N := by
      rw [hlen']
      simp
    refine ⟨sd', hrun, hav', ?_, ?_⟩
    · rw [← hlN, hres.1, hlN]
      exact hav'
    · rw [← hlN]
      exact hres.2.1

theorem stringdeque_pop_deallocates_witness :
    ∃ (d0 : Deque Int) (sd' : StringDeque),
      dequeNew (createAllocator 1 dnodeIF) = some d0 ∧
      pushFreshN { deq := d0, pool := exPoolFree } 1 = some sd' ∧
      (popBackN sd' 1).pool.available = exPoolFree.available ∧
      (popBackN sd' 1).deq.size = 0 := by
  have h := stringdeque_pop_deallocates 1 exPoolFree dnodeIF _ rfl (by decide)
  obtain ⟨-, sd', hrun, -, hava, hsz⟩ := h
  exact ⟨_, sd', rfl, hrun, hava, hsz⟩
